import Mathlib

/-!
Shallow embedding of the return-computation engine of `update.py`
(repository jan-grzybek/investing).

Conventions of the embedding:
* dates are modelled as integers (day numbers); `(end - start).days` becomes
  integer subtraction;
* Python floats are modelled as rationals `ℚ`;
* Python `int(x)` (truncation toward zero) is modelled by `pyInt`;
* fallible code (`assert`, `IndexError`, `ZeroDivisionError`) is modelled with
  `Except Err`;
* Python negative list indexing (`close[idx-1]` with `idx = 0` reads the last
  element) is modelled by `pyGet`.
-/

namespace Investing

/-- Failure modes of the engine.  `assertionError` models a failing Python
`assert`; `indexError` models an out-of-range list access; `degenerateCapital`
models the `ZeroDivisionError` raised by `gain / avg_capital` when the
denominator is zero (the spec calls this `DegenerateCapitalError`);
`alignmentLength` models the benchmark-alignment length assertion (the spec
calls it `AlignmentLengthError`). -/
inductive Err where
  | assertionError
  | indexError
  | degenerateCapital
  | alignmentLength
  deriving DecidableEq, Repr

/-- Python `int(x)`: truncation toward zero. -/
def pyInt (q : ℚ) : ℤ :=
  if 0 ≤ q then ⌊q⌋ else ⌈q⌉

/-- A stock split: `{"date": date, "split": ratio}` in `update.py`. -/
structure Split where
  date : ℤ
  ratio : ℚ
  deriving DecidableEq, Repr

/-- A cash flow `{"date": ..., "value": ...}` (inflow or outflow). -/
structure Flow where
  date : ℤ
  value : ℚ
  deriving DecidableEq, Repr

/-- A position snapshot `{"date": ..., "quantity": ...}`. -/
structure PositionEntry where
  date : ℤ
  quantity : ℤ
  deriving DecidableEq, Repr

/-- An ownership period `{"start": ..., "end": ...}`; `stop = none` models
`"end": None` (still-open period). -/
structure Period where
  start : ℤ
  stop : Option ℤ
  deriving DecidableEq, Repr

/-- A dividend event `{"date": ..., "dividend": per_share_amount}`. -/
structure Dividend where
  date : ℤ
  amount : ℚ
  deriving DecidableEq, Repr

/-- Trade action. -/
inductive Action where
  | buy
  | sell
  deriving DecidableEq, Repr

/-- A `Trade` record. -/
structure Trade where
  date : ℤ
  quantity : ℤ
  price : ℚ
  action : Action
  deriving DecidableEq, Repr

/-- The mutable state of a `Holding` object. -/
structure Holding where
  splits : List Split
  positions : List PositionEntry
  periods : List Period
  inflows : List Flow
  outflows : List Flow
  deriving DecidableEq, Repr

/-- A fresh `Holding` (after `__init__`, with the split list fetched). -/
def Holding.init (splits : List Split) : Holding :=
  { splits := splits, positions := [], periods := [], inflows := [], outflows := [] }

/-- The split-replay loop shared verbatim by `Holding.buy` and `Holding.sell`:

    for split in self._splits:
        assert trade.date != split["date"]
        if trade.date <= split["date"]:
            break
        assert self._positions[-1]["date"] != split["date"]
        if split["date"] > self._positions[-1]["date"]:
            current_quantity = int(current_quantity * split["split"])

`tradeDate` is `trade.date`, `lastDate` is `self._positions[-1]["date"]`. -/
def replaySplits (tradeDate lastDate : ℤ) : List Split → ℤ → Except Err ℤ
  | [], q => .ok q
  | s :: rest, q =>
    if tradeDate = s.date then .error .assertionError
    else if tradeDate ≤ s.date then .ok q
    else if lastDate = s.date then .error .assertionError
    else if lastDate < s.date then
      replaySplits tradeDate lastDate rest (pyInt ((q : ℚ) * s.ratio))
    else
      replaySplits tradeDate lastDate rest q

/-- `Holding.buy(self, trade)`. -/
def Holding.buy (h : Holding) (t : Trade) : Except Err Holding := do
  -- current_quantity = positions[-1].quantity, or 0 on IndexError
  let current₀ : ℤ := ((h.positions.getLast?).map PositionEntry.quantity).getD 0
  let periods' := if current₀ = 0 then h.periods ++ [{ start := t.date, stop := none }] else h.periods
  let current ←
    if current₀ = 0 then pure current₀
    else
      match h.positions.getLast? with
      | some pl =>
        if pl.date < t.date then replaySplits t.date pl.date h.splits current₀
        else pure current₀
      | none => pure current₀
  let inflows' := h.inflows ++ [{ date := t.date, value := (t.quantity : ℚ) * t.price }]
  let positions' :=
    match h.positions.getLast? with
    | some pl =>
      if pl.date = t.date then
        h.positions.dropLast ++ [{ pl with quantity := pl.quantity + t.quantity }]
      else
        h.positions ++ [{ date := t.date, quantity := current + t.quantity }]
    | none => h.positions ++ [{ date := t.date, quantity := current + t.quantity }]
  pure { h with periods := periods', inflows := inflows', positions := positions' }

/-- The quantity the `Holding.sell` code carries into the subtraction: the last
recorded quantity, split-replayed when the trade date is strictly later than
the last position date.  `positions[-1]` on an empty list is an `IndexError`. -/
def Holding.sellAdjusted (h : Holding) (t : Trade) : Except Err ℤ :=
  match h.positions.getLast? with
  | none => .error .indexError
  | some pl =>
    if pl.date < t.date then replaySplits t.date pl.date h.splits pl.quantity
    else .ok pl.quantity

/-- `Holding.sell(self, trade)`.  Note: the source has no negative-quantity
check; the subtraction result is recorded as-is. -/
def Holding.sell (h : Holding) (t : Trade) : Except Err Holding := do
  let current ← h.sellAdjusted t
  let periods' ←
    if current - t.quantity = 0 then
      match h.periods.getLast? with
      | none => .error .indexError
      | some pe => pure (h.periods.dropLast ++ [{ pe with stop := some t.date }])
    else pure h.periods
  let outflows' := h.outflows ++ [{ date := t.date, value := (t.quantity : ℚ) * t.price }]
  let positions' :=
    match h.positions.getLast? with
    | some pl =>
      if pl.date = t.date then
        h.positions.dropLast ++ [{ pl with quantity := pl.quantity - t.quantity }]
      else
        h.positions ++ [{ date := t.date, quantity := current - t.quantity }]
    | none => h.positions
  pure { h with periods := periods', outflows := outflows', positions := positions' }

/-- Dispatch one trade, as in `get_holdings`. -/
def Holding.step (h : Holding) (t : Trade) : Except Err Holding :=
  match t.action with
  | .buy => h.buy t
  | .sell => h.sell t

/-- Process a chronological trade list for one instrument, as `get_holdings`
does starting from a freshly constructed `Holding`. -/
def processTrades (splits : List Split) (ts : List Trade) : Except Err Holding :=
  ts.foldlM Holding.step (Holding.init splits)

/-! ## Modified Dietz (`Holding.summary`) -/

/-- `length = max((end - start).days, 1)` in `Holding.summary`. -/
def dietzLength (s e : ℤ) : ℤ := max (e - s) 1

/-- The two accumulator loops of `Holding.summary` for one period `[s, e]`:

    gain = 0.
    avg_capital = 0.
    for inflow in self._inflows:
        if start <= inflow["date"] < end:
            gain -= inflow["value"]
            avg_capital += (max((end - inflow["date"]).days, 1) / length) * inflow["value"]
    for outflow in outflows:
        if start < outflow["date"] <= end:
            gain += outflow["value"]
            avg_capital -= ((end - outflow["date"]).days / length) * outflow["value"]

Returns `(gain, avg_capital)`. -/
def dietzScan (inflows outflows : List Flow) (s e : ℤ) : ℚ × ℚ :=
  let length : ℤ := dietzLength s e
  let p₁ := inflows.foldl (fun (p : ℚ × ℚ) inflow =>
    if s ≤ inflow.date ∧ inflow.date < e then
      (p.1 - inflow.value, p.2 + ((max (e - inflow.date) 1 : ℤ) : ℚ) / (length : ℚ) * inflow.value)
    else p) (0, 0)
  outflows.foldl (fun (p : ℚ × ℚ) outflow =>
    if s < outflow.date ∧ outflow.date ≤ e then
      (p.1 + outflow.value, p.2 - ((e - outflow.date : ℤ) : ℚ) / (length : ℚ) * outflow.value)
    else p) p₁

/-- The gain of a period as the spec text words it:
Σ outflows within `(start, end]` − Σ inflows within `[start, end)`. -/
def gainSpec (inflows outflows : List Flow) (s e : ℤ) : ℚ :=
  ((outflows.filter (fun o => decide (s < o.date ∧ o.date ≤ e))).map Flow.value).sum
    - ((inflows.filter (fun i => decide (s ≤ i.date ∧ i.date < e))).map Flow.value).sum

/-- The average capital of a period as the spec text words it:
Σ inflow.value × (max(days-to-end, 1) / length) − Σ outflow.value × (days-to-end / length),
the 1-day floor applying to inflows only. -/
def avgCapitalSpec (inflows outflows : List Flow) (s e : ℤ) : ℚ :=
  ((inflows.filter (fun i => decide (s ≤ i.date ∧ i.date < e))).map
      (fun i => ((max (e - i.date) 1 : ℤ) : ℚ) / (dietzLength s e : ℚ) * i.value)).sum
    - ((outflows.filter (fun o => decide (s < o.date ∧ o.date ≤ e))).map
      (fun o => ((e - o.date : ℤ) : ℚ) / (dietzLength s e : ℚ) * o.value)).sum

/-- The per-period factor `1. + gain / avg_capital` of `Holding.summary`.
Python raises `ZeroDivisionError` when `avg_capital == 0.0`; the embedding
returns `Err.degenerateCapital` there. -/
def dietzFactor (inflows outflows : List Flow) (s e : ℤ) : Except Err ℚ :=
  let r := dietzScan inflows outflows s e
  if r.2 = 0 then .error .degenerateCapital else .ok (1 + r.1 / r.2)

/-- The period loop of `Holding.summary`, accumulating the chained factor
`tsr` and `total_ownership_length`.  An open period takes `end = today` and
appends a synthetic outflow `positions[-1].quantity * price` to the
(henceforth shared) outflow list. -/
def tsrLoop (inflows : List Flow) (today : ℤ) (lastQty : ℤ) (price : ℚ) :
    List Period → List Flow → ℚ → ℤ → Except Err (ℚ × ℤ)
  | [], _, tsr, totalLen => .ok (tsr, totalLen)
  | per :: rest, outflows, tsr, totalLen =>
    let eo : ℤ × List Flow :=
      match per.stop with
      | none => (today, outflows ++ [{ date := today, value := (lastQty : ℚ) * price }])
      | some e => (e, outflows)
    match dietzFactor inflows eo.2 per.start eo.1 with
    | .error err => .error err
    | .ok f =>
      tsrLoop inflows today lastQty price rest eo.2 (tsr * f)
        (totalLen + dietzLength per.start eo.1)

/-! ## Dividend attribution (`Holding._add_dividends`) -/

/-- The split loop of `_add_dividends` for one emitted dividend:

    quantity = position["quantity"]
    for split in self._splits[split_idx:]:
        if dividend["date"] <= split["date"]:
            break
        assert split["date"] != position["date"]
        if split["date"] > position["date"]:
            quantity = int(quantity * split["split"])
        else:
            split_idx += 1

Takes the suffix `splits[split_idx:]` plus the running `split_idx` and returns
the adjusted quantity together with the updated `split_idx`. -/
def divSplitLoop (divDate posDate : ℤ) : List Split → ℤ → ℕ → Except Err (ℤ × ℕ)
  | [], q, si => .ok (q, si)
  | s :: rest, q, si =>
    if divDate ≤ s.date then .ok (q, si)
    else if s.date = posDate then .error .assertionError
    else if posDate < s.date then divSplitLoop divDate posDate rest (pyInt ((q : ℚ) * s.ratio)) si
    else divSplitLoop divDate posDate rest q (si + 1)

/-- The `while True` loop of `_add_dividends` for one dividend.  The current
position suffix `positions[position_idx:]` stands for `position_idx`; its head
is `positions[position_idx]` and the head of its tail is
`positions[position_idx + 1]`.  Returns the updated suffix, `split_idx` and
outflow list. -/
def divWhile (splits : List Split) (divDate : ℤ) (divAmt : ℚ) :
    List PositionEntry → ℕ → List Flow → Except Err (List PositionEntry × ℕ × List Flow)
  | [], _, _ => .error .indexError
  | position :: restPos, sIdx, acc =>
    if position.date < divDate then
      -- the `elif position["quantity"] > 0` / final `else` pair
      let emit : Except Err (List PositionEntry × ℕ × List Flow) :=
        if 0 < position.quantity then
          match divSplitLoop divDate position.date (splits.drop sIdx) position.quantity sIdx with
          | .error e => .error e
          | .ok qs => .ok (position :: restPos, qs.2,
              acc ++ [{ date := divDate, value := (qs.1 : ℚ) * divAmt * (1 - 15 / 100) }])
        else .ok (position :: restPos, sIdx, acc)
      match restPos with
      | next :: _ => if next.date < divDate then divWhile splits divDate divAmt restPos sIdx acc else emit
      | [] => emit
    else .ok (position :: restPos, sIdx, acc)

/-- The outer `for dividend in self._dividends` loop of `_add_dividends`.
`posSuffix` is `positions[position_idx:]`; an exhausted suffix corresponds to
`position_idx >= len(self._positions)`, which `break`s out of the loop. -/
def addDividendsLoop (splits : List Split) :
    List Dividend → List PositionEntry → ℕ → List Flow → Except Err (List Flow)
  | [], _, _, acc => .ok acc
  | d :: rest, posSuffix, sIdx, acc =>
    match posSuffix with
    | [] => .ok acc
    | _ :: _ =>
      match divWhile splits d.date d.amount posSuffix sIdx acc with
      | .error e => .error e
      | .ok r => addDividendsLoop splits rest r.1 r.2.1 r.2.2

/-- `Holding._add_dividends`, with the dividend series passed explicitly
(`self._dividends` is fetched from the market-data provider). -/
def Holding.addDividends (h : Holding) (dividends : List Dividend) : Except Err (List Flow) :=
  addDividendsLoop h.splits dividends h.positions 0 h.outflows

/-! ## TWR engine (`calc_twr`) -/

/-- One `(date, value, flow)` valuation triple. -/
structure Valuation where
  date : ℤ
  value : ℚ
  flow : ℚ
  deriving DecidableEq, Repr

/-- The result record of `calc_twr` (the `cagr%` field involves a real-number
power and is outside every claim, so it is not modelled). -/
structure TotalReturn where
  start_date : ℤ
  history : List (ℤ × ℚ)
  twrPct : ℚ
  deriving DecidableEq, Repr

/-- Round-half-to-even of a rational, the rounding Python's `round` uses. -/
def roundHalfEven (q : ℚ) : ℤ :=
  let f := ⌊q⌋
  let r := q - (f : ℚ)
  if r < 1 / 2 then f
  else if 1 / 2 < r then f + 1
  else if f % 2 = 0 then f else f + 1

/-- Python `round(x, 1)`. -/
def pyRound1 (q : ℚ) : ℚ := (roundHalfEven (q * 10) : ℚ) / 10

/-- The accumulation loop of `calc_twr` over `valuations[1:]`:
carries `(twr, start_value, history)`. -/
def twrLoop : List Valuation → ℚ × ℚ × List (ℤ × ℚ) → ℚ × ℚ × List (ℤ × ℚ)
  | [], st => st
  | v :: rest, (twr, startValue, hist) =>
    twrLoop rest (twr * (v.value / startValue), v.value + v.flow,
      hist ++ [(v.date, twr * (v.value / startValue))])

/-- `calc_twr(valuations, current_value)`.  `today` is `datetime.today()`,
passed explicitly to keep the embedding pure.  Python's `sorted` by date is
modelled with a stable `mergeSort`. -/
def calc_twr (today : ℤ) (valuations : List Valuation) (current_value : ℚ) : TotalReturn :=
  match valuations.mergeSort (fun a b => a.date ≤ b.date) with
  | [] => { start_date := today, history := [], twrPct := 0 }
  | v₀ :: rest =>
    let st := twrLoop rest (1, v₀.value + v₀.flow, [(v₀.date, 1)])
    let twr := st.1 * (current_value / st.2.1)
    { start_date := v₀.date,
      history := st.2.2 ++ [(today, twr)],
      twrPct := pyRound1 ((twr - 1) * 100) }

/-- The spec's wording of the chained TWR factor: starting from
`baseline = value₀ + flow₀`, multiply by `value_i / baseline`, re-baseline to
`value_i + flow_i`, and finish with `current_value / baseline`. -/
def twrChainSpec : ℚ → List Valuation → ℚ → ℚ
  | baseline, [], current => current / baseline
  | baseline, v :: rest, current => (v.value / baseline) * twrChainSpec (v.value + v.flow) rest current

/-! ## Benchmark alignment (`get_benchmarks`) -/

/-- One row of the benchmark daily price history. -/
structure PriceRow where
  date : ℤ
  openP : ℚ
  closeP : ℚ
  deriving DecidableEq, Repr

/-- Python list indexing with negative-index wrap-around:
`l[i]` is `l[len(l) + i]` for `i < 0`, and an `IndexError` out of range. -/
def pyGet (l : List ℚ) (i : ℤ) : Except Err ℚ :=
  let j := if i < 0 then (l.length : ℤ) + i else i
  if hj : 0 ≤ j ∧ j.toNat < l.length then .ok (l.get ⟨j.toNat, hj.2⟩)
  else .error .indexError

/-- The alignment loop of `get_benchmarks`:

    ref_idx = 1
    for idx, row in enumerate(history.itertuples()):
        ref_date = total_return_history[ref_idx][0]
        date = row.Index.to_pydatetime()
        if date.date() < ref_date.date():
            continue
        elif date.date() == ref_date.date():
            summary["history"].append((ref_date, close[idx] / start_price)); ref_idx += 1
        else:
            summary["history"].append((ref_date, close[idx-1] / start_price)); ref_idx += 1
            ref_date = total_return_history[ref_idx][0]
            if date.date() == ref_date.date():
                summary["history"].append((ref_date, close[idx] / start_price)); ref_idx += 1

`grid` is the list of dates of `total_return_history`, `closes` the full
close-price column, `rows` the remaining rows, `idx` the running row index. -/
def alignLoop (grid : List ℤ) (closes : List ℚ) (startPrice : ℚ) :
    List ℤ → ℕ → ℕ → List (ℤ × ℚ) → Except Err (ℕ × List (ℤ × ℚ))
  | [], _, refIdx, acc => .ok (refIdx, acc)
  | date :: rows, idx, refIdx, acc =>
    match grid.get? refIdx with
    | none => .error .indexError
    | some refDate =>
      if date < refDate then alignLoop grid closes startPrice rows (idx + 1) refIdx acc
      else if date = refDate then
        match pyGet closes idx with
        | .error e => .error e
        | .ok c => alignLoop grid closes startPrice rows (idx + 1) (refIdx + 1)
            (acc ++ [(refDate, c / startPrice)])
      else
        match pyGet closes ((idx : ℤ) - 1) with
        | .error e => .error e
        | .ok c =>
          let acc' := acc ++ [(refDate, c / startPrice)]
          match grid.get? (refIdx + 1) with
          | none => .error .indexError
          | some refDate' =>
            if date = refDate' then
              match pyGet closes idx with
              | .error e => .error e
              | .ok c' => alignLoop grid closes startPrice rows (idx + 1) (refIdx + 2)
                  (acc' ++ [(refDate', c' / startPrice)])
            else alignLoop grid closes startPrice rows (idx + 1) (refIdx + 1) acc'

/-- The benchmark-alignment portion of `get_benchmarks` for one benchmark:
seed `(start_date, 1.)`, run the loop over the daily rows, patch a single
missing point with the last close, and `assert` the final length equals the
grid length. -/
def alignBenchmark (grid : List ℤ) (rows : List PriceRow) : Except Err (List (ℤ × ℚ)) :=
  match grid with
  | [] => .error .indexError
  | g₀ :: _ => do
    let startPrice ← pyGet (rows.map PriceRow.openP) 0
    let closes := rows.map PriceRow.closeP
    let r ← alignLoop grid closes startPrice (rows.map PriceRow.date) 0 1 [(g₀, 1)]
    let hist := r.2
    let hist' ←
      if hist.length < grid.length then do
        let lastClose ← pyGet closes (-1)
        pure (hist ++ [((grid.getLast?).getD g₀, lastClose / startPrice)])
      else pure hist
    if hist'.length = grid.length then pure hist' else .error .alignmentLength

end Investing

deriving instance DecidableEq for Except

namespace Investing

/-! ## C1: the Modified Dietz gain / average-capital formulas -/

/-- Unrolling the inflow accumulator loop of `Holding.summary`. -/
theorem inflow_foldl_eq (s e : ℤ) (fs : List Flow) (g a : ℚ) :
    fs.foldl (fun (p : ℚ × ℚ) f =>
        if s ≤ f.date ∧ f.date < e then
          (p.1 - f.value, p.2 + ((max (e - f.date) 1 : ℤ) : ℚ) / ((dietzLength s e : ℤ) : ℚ) * f.value)
        else p) (g, a) =
      (g - ((fs.filter (fun f => decide (s ≤ f.date ∧ f.date < e))).map Flow.value).sum,
       a + ((fs.filter (fun f => decide (s ≤ f.date ∧ f.date < e))).map
           (fun f => ((max (e - f.date) 1 : ℤ) : ℚ) / ((dietzLength s e : ℤ) : ℚ) * f.value)).sum) := by
  induction fs generalizing g a with
  | nil => simp
  | cons f fs ih =>
    by_cases hc : s ≤ f.date ∧ f.date < e
    · simp only [List.foldl_cons, if_pos hc, ih, List.filter_cons, decide_eq_true_eq, hc,
        and_self, if_pos, List.map_cons, List.sum_cons]
      exact Prod.ext (by ring) (by ring)
    · simp only [List.foldl_cons, if_neg hc, ih, List.filter_cons, decide_eq_true_eq, hc,
        if_neg, ite_false]

/-- Unrolling the outflow accumulator loop of `Holding.summary`. -/
theorem outflow_foldl_eq (s e : ℤ) (fs : List Flow) (g a : ℚ) :
    fs.foldl (fun (p : ℚ × ℚ) f =>
        if s < f.date ∧ f.date ≤ e then
          (p.1 + f.value, p.2 - ((e - f.date : ℤ) : ℚ) / ((dietzLength s e : ℤ) : ℚ) * f.value)
        else p) (g, a) =
      (g + ((fs.filter (fun f => decide (s < f.date ∧ f.date ≤ e))).map Flow.value).sum,
       a - ((fs.filter (fun f => decide (s < f.date ∧ f.date ≤ e))).map
           (fun f => ((e - f.date : ℤ) : ℚ) / ((dietzLength s e : ℤ) : ℚ) * f.value)).sum) := by
  induction fs generalizing g a with
  | nil => simp
  | cons f fs ih =>
    by_cases hc : s < f.date ∧ f.date ≤ e
    · simp only [List.foldl_cons, if_pos hc, ih, List.filter_cons, decide_eq_true_eq, hc,
        and_self, if_pos, List.map_cons, List.sum_cons]
      exact Prod.ext (by ring) (by ring)
    · simp only [List.foldl_cons, if_neg hc, ih, List.filter_cons, decide_eq_true_eq, hc,
        if_neg, ite_false]

/-- C1.  For every period `[start, end]`, the `Holding.summary` accumulator
loops compute exactly the spec's formulas: `gain` is the sum of outflow values
in `(start, end]` minus the sum of inflow values in `[start, end)`, and
`average_capital` weights each inflow by `max(days-to-end, 1) / length` and
each outflow by `days-to-end / length` — the 1-day floor applies to inflows
only, not to outflows. -/
theorem summary_gain_avg_capital_eq_spec (inflows outflows : List Flow) (s e : ℤ) :
    dietzScan inflows outflows s e =
      (gainSpec inflows outflows s e, avgCapitalSpec inflows outflows s e) := by
  simp only [dietzScan, gainSpec, avgCapitalSpec]
  rw [inflow_foldl_eq, outflow_foldl_eq]
  exact Prod.ext (by push_cast; ring) (by push_cast; ring)

/-! ## C6: the zero-denominator guard -/

/-- C6.  If a period's `average_capital` evaluates to 0 while its `gain` is
nonzero, the per-period return computation fails with the degenerate-capital
error (Python's `ZeroDivisionError` at `gain / avg_capital`); it never
returns a silently-divided factor. -/
theorem degenerate_capital_fails (inflows outflows : List Flow) (s e : ℤ)
    (havg : (dietzScan inflows outflows s e).2 = 0)
    (_hgain : (dietzScan inflows outflows s e).1 ≠ 0) :
    dietzFactor inflows outflows s e = .error .degenerateCapital ∧
      ∀ q : ℚ, dietzFactor inflows outflows s e ≠ .ok q := by
  refine ⟨?_, ?_⟩
  · simp only [dietzFactor, havg, if_pos]
  · intro q
    simp only [dietzFactor, havg, if_pos]
    exact fun h => Except.noConfusion h

/-- Witness for C6: a period `[0, 10]` with no inflows and a single outflow of
5 dated exactly at the period end has `average_capital = 0` and `gain = 5`. -/
theorem degenerate_capital_fails_witness :
    dietzFactor [] [⟨10, 5⟩] 0 10 = .error .degenerateCapital :=
  (degenerate_capital_fails [] [⟨10, 5⟩] 0 10 (by with_unfolding_all decide)
    (by with_unfolding_all decide)).1

/-! ## C7: TWR chaining -/

/-- The final factor accumulated by `twrLoop`, times the last sub-period
return against the current value, is the spec's chained product. -/
theorem twrLoop_factor (current : ℚ) (vs : List Valuation) (twr base : ℚ)
    (hist : List (ℤ × ℚ)) :
    (twrLoop vs (twr, base, hist)).1 * (current / (twrLoop vs (twr, base, hist)).2.1) =
      twr * twrChainSpec base vs current := by
  induction vs generalizing twr base hist with
  | nil => simp [twrLoop, twrChainSpec]
  | cons v vs ih =>
    simp only [twrLoop, twrChainSpec, ih]
    ring

/-- The history accumulated by `twrLoop` only extends its input. -/
theorem twrLoop_hist (vs : List Valuation) (twr base : ℚ) (hist : List (ℤ × ℚ)) :
    ∃ tail, (twrLoop vs (twr, base, hist)).2.2 = hist ++ tail := by
  induction vs generalizing twr base hist with
  | nil => exact ⟨[], by simp [twrLoop]⟩
  | cons v vs ih =>
    obtain ⟨tail, htail⟩ := ih (twr * (v.value / base)) (v.value + v.flow)
      (hist ++ [(v.date, twr * (v.value / base))])
    exact ⟨(v.date, twr * (v.value / base)) :: tail, by simp [twrLoop, htail]⟩

/-- C7.  The TWR engine chains sub-period returns exactly as the spec words
it: starting from `baseline = value₀ + flow₀` it multiplies by
`value_i / baseline`, re-baselines to `value_i + flow_i`, and finally
multiplies by `current_value / baseline`, appending a synthetic "today"
point carrying the final factor; and on the concrete valuations
`[(d₀, 100, 0), (d₁, 110, 0)]` with current value 121 the reported `twr%`
is exactly 21. -/
theorem calc_twr_chains :
    (∀ (today : ℤ) (v₀ : Valuation) (rest : List Valuation) (current : ℚ),
        (v₀ :: rest).Pairwise (fun a b : Valuation => a.date ≤ b.date) →
        (calc_twr today (v₀ :: rest) current).start_date = v₀.date ∧
        (calc_twr today (v₀ :: rest) current).history.getLast? =
          some (today, twrChainSpec (v₀.value + v₀.flow) rest current) ∧
        (calc_twr today (v₀ :: rest) current).twrPct =
          pyRound1 ((twrChainSpec (v₀.value + v₀.flow) rest current - 1) * 100)) ∧
    (calc_twr 2 [⟨0, 100, 0⟩, ⟨1, 110, 0⟩] 121).twrPct = 21 := by
  constructor
  · intro today v₀ rest current hsorted
    have hms : (v₀ :: rest).mergeSort (fun a b => a.date ≤ b.date) = v₀ :: rest := by
      apply List.mergeSort_of_sorted
      exact hsorted.imp (fun h => by simpa using h)
    have hfac := twrLoop_factor current rest 1 (v₀.value + v₀.flow) [(v₀.date, 1)]
    rw [one_mul] at hfac
    simp only [calc_twr, hms]
    refine ⟨trivial, ?_, by rw [hfac]⟩
    rw [List.getLast?_concat, hfac]
  · with_unfolding_all decide

/-- Witness for C7: the chaining characterization applied to the concrete
series `[(0, 100, 0), (1, 110, 0)]` with current value 121 and "today" = 2. -/
theorem calc_twr_chains_witness :
    (calc_twr 2 [⟨0, 100, 0⟩, ⟨1, 110, 0⟩] 121).history.getLast? =
      some (2, twrChainSpec (100 + 0) [⟨1, 110, 0⟩] 121) :=
  (calc_twr_chains.1 2 ⟨0, 100, 0⟩ [⟨1, 110, 0⟩] 121 (by decide)).2.1

/-! ## Split-replay characterization (shared by C4, C9, C10) -/

/-- `pyInt` is the floor on nonnegative arguments. -/
theorem pyInt_of_nonneg {q : ℚ} (h : 0 ≤ q) : pyInt q = ⌊q⌋ := if_pos h

/-- `pyInt` preserves nonnegativity on nonnegative arguments. -/
theorem pyInt_nonneg {q : ℚ} (h : 0 ≤ q) : 0 ≤ pyInt q := by
  rw [pyInt_of_nonneg h]
  exact Int.le_floor.mpr (by exact_mod_cast h)

/-- With date-sorted splits none of which fall on the trade date or on the
last position date, the replay loop of `buy`/`sell` multiplies (with `int`
truncation) by exactly the split ratios dated in the OPEN interval
`(last position date, trade date)`. -/
theorem replaySplits_eq_foldl (td ld : ℤ) (splits : List Split) (q : ℤ)
    (hsort : splits.Pairwise (fun a b => a.date ≤ b.date))
    (hnc : ∀ s ∈ splits, s.date ≠ td ∧ s.date ≠ ld) :
    replaySplits td ld splits q =
      .ok ((splits.filter (fun s => decide (ld < s.date ∧ s.date < td))).foldl
          (fun acc s => pyInt ((acc : ℚ) * s.ratio)) q) := by
  induction splits generalizing q with
  | nil => rfl
  | cons s rest ih =>
    obtain ⟨hntd, hnld⟩ := hnc s (List.mem_cons_self s rest)
    rw [List.pairwise_cons] at hsort
    have hnc' : ∀ r ∈ rest, r.date ≠ td ∧ r.date ≠ ld :=
      fun r hr => hnc r (List.mem_cons_of_mem s hr)
    simp only [replaySplits, if_neg (fun h : td = s.date => hntd h.symm)]
    by_cases h1 : td ≤ s.date
    · rw [if_pos h1]
      have hrest : rest.filter (fun s => decide (ld < s.date ∧ s.date < td)) = [] := by
        refine List.filter_eq_nil_iff.mpr (fun r hr => ?_)
        have := hsort.1 r hr
        simp only [decide_eq_true_eq, not_and, not_lt]
        intro _
        omega
      have hs : ¬ (ld < s.date ∧ s.date < td) := fun hh => absurd hh.2 (not_lt.mpr h1)
      rw [List.filter_cons_of_neg (by simpa using hs), hrest]
      rfl
    · rw [if_neg h1, if_neg (fun h : ld = s.date => hnld h.symm)]
      by_cases h2 : ld < s.date
      · rw [if_pos h2, ih _ hsort.2 hnc',
          List.filter_cons_of_pos (by simp [h2]; omega), List.foldl_cons]
      · rw [if_neg h2, ih _ hsort.2 hnc']
        have hs : ¬ (ld < s.date ∧ s.date < td) := fun hh => absurd hh.1 h2
        rw [List.filter_cons_of_neg (by simpa using hs)]

/-- With date-sorted splits, a split dated exactly on the trade date makes
the replay loop of `buy`/`sell` abort with an assertion failure. -/
theorem replaySplits_error_on_trade_date (td ld : ℤ) (splits : List Split) (q : ℤ)
    (hsort : splits.Pairwise (fun a b => a.date ≤ b.date))
    (hmem : ∃ s ∈ splits, s.date = td) :
    replaySplits td ld splits q = .error .assertionError := by
  induction splits generalizing q with
  | nil => obtain ⟨s, hs, _⟩ := hmem; cases hs
  | cons s rest ih =>
    rw [List.pairwise_cons] at hsort
    by_cases h0 : td = s.date
    · simp [replaySplits, if_pos h0]
    · simp only [replaySplits, if_neg h0]
      obtain ⟨r, hr, hrd⟩ := hmem
      rcases List.mem_cons.mp hr with rfl | hr'
      · exact absurd hrd.symm h0
      · have hsr : s.date ≤ r.date := hsort.1 r hr'
        have h1 : ¬ td ≤ s.date := by omega
        rw [if_neg h1]
        by_cases h2 : ld = s.date
        · rw [if_pos h2]
        · rw [if_neg h2]
          by_cases h3 : ld < s.date
          · rw [if_pos h3]; exact ih _ hsort.2 ⟨r, hr', hrd⟩
          · rw [if_neg h3]; exact ih _ hsort.2 ⟨r, hr', hrd⟩

/-- C4 counterexample.  A split dated exactly on the trade date is NOT
applied (as the claim's half-open interval `(last, trade]` would have it):
it aborts the replay — and the whole trade processing — with an assertion
failure instead of producing quantity `int(10 * 2)`. -/
theorem split_on_trade_date_cex :
    replaySplits 2 1 [⟨2, 2⟩] 10 = .error .assertionError ∧
    processTrades [⟨2, 2⟩] [⟨1, 10, 1, .buy⟩, ⟨2, 20, 1, .sell⟩] = .error .assertionError ∧
    replaySplits 2 1 [⟨2, 2⟩] 10 ≠ .ok (pyInt ((10 : ℚ) * 2)) := by
  with_unfolding_all decide

/-- C4 (amended).  On a BUY or SELL while already holding, with the trade
date strictly later than the last position date, the carried quantity is
multiplied by the ratios of exactly those splits whose date lies in the OPEN
interval `(last position date, trade date)` — each applied exactly once and
splits dated on or before the last position date never applied — while a
split dated exactly on the trade date aborts with an assertion failure
rather than being included. -/
theorem replay_window_open_interval :
    (∀ (td ld : ℤ) (splits : List Split) (q : ℤ),
        splits.Pairwise (fun a b => a.date ≤ b.date) →
        (∀ s ∈ splits, s.date ≠ td ∧ s.date ≠ ld) →
        replaySplits td ld splits q =
          .ok ((splits.filter (fun s => decide (ld < s.date ∧ s.date < td))).foldl
              (fun acc s => pyInt ((acc : ℚ) * s.ratio)) q)) ∧
    (∀ (td ld : ℤ) (splits : List Split) (q : ℤ),
        splits.Pairwise (fun a b => a.date ≤ b.date) →
        (∃ s ∈ splits, s.date = td) →
        replaySplits td ld splits q = .error .assertionError) :=
  ⟨replaySplits_eq_foldl, replaySplits_error_on_trade_date⟩

/-- Witness for C4: a split strictly inside the window is applied once
(10 shares, 2:1 split at date 30, trade at 60 over last position date 0),
and the trade-date collision case errors. -/
theorem replay_window_open_interval_witness :
    replaySplits 60 0 [⟨30, 2⟩] 10 =
      .ok ((([⟨30, 2⟩] : List Split).filter
          (fun s => decide ((0 : ℤ) < s.date ∧ s.date < 60))).foldl
          (fun acc s => pyInt ((acc : ℚ) * s.ratio)) 10) ∧
    replaySplits 3 1 [⟨3, 2⟩] 10 = .error .assertionError :=
  ⟨replay_window_open_interval.1 60 0 [⟨30, 2⟩] 10 (by decide) (by decide),
   replay_window_open_interval.2 3 1 [⟨3, 2⟩] 10 (by decide) ⟨⟨3, 2⟩, by decide, rfl⟩⟩

/-! ## C10: split products are truncated to integers -/

/-- On nonnegative quantities and ratios, the `pyInt` truncation chain is a
floor chain. -/
theorem foldl_pyInt_eq_floor (splits : List Split) (q : ℤ) (hq : 0 ≤ q)
    (hr : ∀ s ∈ splits, 0 ≤ s.ratio) :
    splits.foldl (fun acc s => pyInt ((acc : ℚ) * s.ratio)) q =
      splits.foldl (fun acc s => ⌊(acc : ℚ) * s.ratio⌋) q := by
  induction splits generalizing q with
  | nil => rfl
  | cons s rest ih =>
    have hnn : (0 : ℚ) ≤ (q : ℚ) * s.ratio :=
      mul_nonneg (by exact_mod_cast hq) (hr s (List.mem_cons_self s rest))
    simp only [List.foldl_cons, pyInt_of_nonneg hnn]
    exact ih _ (Int.le_floor.mpr (by exact_mod_cast hnn))
      (fun r hr' => hr r (List.mem_cons_of_mem s hr'))

/-- The split loop of `_add_dividends`, on date-sorted splits none of which
(below the dividend date) collide with the position date: it truncates the
quantity through exactly the splits in `(position date, dividend date)` and
advances `split_idx` by the number of splits dated before the position date
(and before the dividend date). -/
theorem divSplitLoop_eq_foldl (dd pd : ℤ) (splits : List Split) (q : ℤ) (si : ℕ)
    (hsort : splits.Pairwise (fun a b => a.date ≤ b.date))
    (hnc : ∀ s ∈ splits, s.date < dd → s.date ≠ pd) :
    divSplitLoop dd pd splits q si =
      .ok ((splits.filter (fun s => decide (pd < s.date ∧ s.date < dd))).foldl
          (fun acc s => pyInt ((acc : ℚ) * s.ratio)) q,
        si + (splits.filter (fun s => decide (s.date < dd ∧ s.date < pd))).length) := by
  induction splits generalizing q si with
  | nil => rfl
  | cons s rest ih =>
    rw [List.pairwise_cons] at hsort
    have hnc' : ∀ r ∈ rest, r.date < dd → r.date ≠ pd :=
      fun r hr => hnc r (List.mem_cons_of_mem s hr)
    by_cases h1 : dd ≤ s.date
    · have hwin : rest.filter (fun s => decide (pd < s.date ∧ s.date < dd)) = [] := by
        refine List.filter_eq_nil_iff.mpr (fun r hr => ?_)
        have := hsort.1 r hr
        simp only [decide_eq_true_eq, not_and, not_lt]
        intro _
        omega
      have hcnt : rest.filter (fun s => decide (s.date < dd ∧ s.date < pd)) = [] := by
        refine List.filter_eq_nil_iff.mpr (fun r hr => ?_)
        have := hsort.1 r hr
        simp only [decide_eq_true_eq, not_and, not_lt]
        intro h
        omega
      simp only [divSplitLoop, if_pos h1]
      rw [List.filter_cons_of_neg (by simp; omega), List.filter_cons_of_neg (by simp; omega),
        hwin, hcnt]
      rfl
    · push_neg at h1
      have hne : s.date ≠ pd := hnc s (List.mem_cons_self s rest) h1
      simp only [divSplitLoop, if_neg (not_le.mpr h1), if_neg hne]
      by_cases h2 : pd < s.date
      · rw [if_pos h2, ih _ _ hsort.2 hnc',
          List.filter_cons_of_pos (by simp [h2, h1]),
          List.filter_cons_of_neg (by simp; omega), List.foldl_cons]
      · push_neg at h2
        rw [if_neg (not_lt.mpr h2), ih _ _ hsort.2 hnc',
          List.filter_cons_of_neg (by simp; omega),
          List.filter_cons_of_pos (by simp [h1]; omega)]
        simp only [List.length_cons]
        rw [Nat.add_comm (List.length _) 1, ← Nat.add_assoc]

/-- C10.  Wherever a split ratio is replayed against a carried quantity — in
`buy`/`sell` (via `replaySplits`) and in dividend attribution (via
`divSplitLoop`) — each step computes `int(quantity * ratio)`, i.e. truncates
the product to an integer, flooring it for the nonnegative quantities the
ledger holds; concretely, a 3:2 split of 5 shares yields `int(7.5) = 7`,
dropping the fractional half share. -/
theorem split_products_truncated :
    (∀ (td ld : ℤ) (splits : List Split) (q : ℤ),
        splits.Pairwise (fun a b => a.date ≤ b.date) →
        (∀ s ∈ splits, s.date ≠ td ∧ s.date ≠ ld) →
        0 ≤ q → (∀ s ∈ splits, 0 ≤ s.ratio) →
        replaySplits td ld splits q =
          .ok ((splits.filter (fun s => decide (ld < s.date ∧ s.date < td))).foldl
              (fun acc s => ⌊(acc : ℚ) * s.ratio⌋) q)) ∧
    (∀ (dd pd : ℤ) (splits : List Split) (q : ℤ) (si : ℕ),
        splits.Pairwise (fun a b => a.date ≤ b.date) →
        (∀ s ∈ splits, s.date < dd → s.date ≠ pd) →
        0 ≤ q → (∀ s ∈ splits, 0 ≤ s.ratio) →
        ∃ si', divSplitLoop dd pd splits q si =
          .ok ((splits.filter (fun s => decide (pd < s.date ∧ s.date < dd))).foldl
              (fun acc s => ⌊(acc : ℚ) * s.ratio⌋) q, si')) ∧
    (replaySplits 10 0 [⟨5, 3 / 2⟩] 5 = .ok 7 ∧ ((7 : ℚ) ≠ (5 : ℚ) * (3 / 2))) := by
  refine ⟨?_, ?_, by with_unfolding_all decide⟩
  · intro td ld splits q hsort hnc hq hr
    rw [replaySplits_eq_foldl td ld splits q hsort hnc,
      foldl_pyInt_eq_floor _ q hq (fun s hs => hr s (List.mem_of_mem_filter hs))]
  · intro dd pd splits q si hsort hnc hq hr
    refine ⟨si + (splits.filter (fun s => decide (s.date < dd ∧ s.date < pd))).length, ?_⟩
    rw [divSplitLoop_eq_foldl dd pd splits q si hsort hnc,
      foldl_pyInt_eq_floor _ q hq (fun s hs => hr s (List.mem_of_mem_filter hs))]

/-- Witness for C10: the 3:2 split of 5 shares inside the trade window and
inside a dividend window, both truncating `7.5` to `7`. -/
theorem split_products_truncated_witness :
    replaySplits 10 0 [⟨5, 3 / 2⟩] 5 =
      .ok ((([⟨5, 3 / 2⟩] : List Split).filter
          (fun s => decide ((0 : ℤ) < s.date ∧ s.date < 10))).foldl
          (fun acc s => ⌊(acc : ℚ) * s.ratio⌋) 5) :=
  split_products_truncated.1 10 0 [⟨5, 3 / 2⟩] 5 (by decide) (by decide) (by decide)
    (by intro s hs; fin_cases hs; norm_num)

/-! ## C2: overselling -/

/-- `Except.bind` on a success, for unfolding `do` blocks. -/
theorem except_bind_ok {ε α β : Type} (a : α) (f : α → Except ε β) :
    (Except.ok a : Except ε α) >>= f = f a := rfl

/-- Evaluation of `Holding.sell` when the adjusted quantity is known and the
result is nonzero (no period is closed). -/
theorem sell_eq_of_adjusted (h : Holding) (t : Trade) (qa : ℤ)
    (hqa : h.sellAdjusted t = .ok qa) (hnz : qa - t.quantity ≠ 0) :
    h.sell t = .ok { h with
      outflows := h.outflows ++ [{ date := t.date, value := (t.quantity : ℚ) * t.price }],
      positions :=
        match h.positions.getLast? with
        | some pl =>
          if pl.date = t.date then
            h.positions.dropLast ++ [{ pl with quantity := pl.quantity - t.quantity }]
          else
            h.positions ++ [{ date := t.date, quantity := qa - t.quantity }]
        | none => h.positions } := by
  rw [Holding.sell, hqa, except_bind_ok, if_neg hnz]
  rfl

/-- C2 counterexample.  Buying 5 shares and then selling 10 does NOT fail:
the run succeeds and records the negative quantity −5 in the position
snapshot list (the source has no `NegativeQuantityError`). -/
theorem oversell_no_error_cex :
    processTrades [] [⟨0, 5, 10, .buy⟩, ⟨1, 10, 2, .sell⟩] =
      .ok { splits := [], positions := [⟨0, 5⟩, ⟨1, -5⟩], periods := [⟨0, none⟩],
            inflows := [⟨0, 50⟩], outflows := [⟨1, 20⟩] } ∧
    ((-5 : ℤ) < 0) := by
  with_unfolding_all decide

/-- C2 (amended).  A SELL whose quantity exceeds the (split-adjusted) held
quantity is processed without any error: the sell succeeds and the negative
difference is recorded as the latest position snapshot quantity. -/
theorem oversell_records_negative (h : Holding) (t : Trade) (qa : ℤ)
    (hqa : h.sellAdjusted t = .ok qa) (hlt : qa < t.quantity) :
    ∃ h', h.sell t = .ok h' ∧
      (h'.positions.getLast?).map PositionEntry.quantity = some (qa - t.quantity) ∧
      qa - t.quantity < 0 := by
  have hnz : qa - t.quantity ≠ 0 := by omega
  refine ⟨_, sell_eq_of_adjusted h t qa hqa hnz, ?_, by omega⟩
  obtain ⟨pl, hpl⟩ : ∃ pl, h.positions.getLast? = some pl := by
    cases hp : h.positions.getLast? with
    | none => rw [Holding.sellAdjusted, hp] at hqa; cases hqa
    | some pl => exact ⟨pl, rfl⟩
  by_cases hdate : pl.date = t.date
  · have hq : qa = pl.quantity := by
      simp only [Holding.sellAdjusted, hpl] at hqa
      rw [if_neg (by omega : ¬ pl.date < t.date)] at hqa
      exact (Except.ok.inj hqa).symm
    simp [hpl, hdate, List.getLast?_concat, hq]
  · simp [hpl, hdate, List.getLast?_concat]

/-- Witness for C2: selling 10 out of 5 held shares records snapshot
quantity −5 without error. -/
theorem oversell_records_negative_witness :
    ∃ h', Holding.sell ⟨[], [⟨0, 5⟩], [⟨0, none⟩], [⟨0, 50⟩], []⟩ ⟨1, 10, 2, .sell⟩ = .ok h' ∧
      (h'.positions.getLast?).map PositionEntry.quantity = some ((5 : ℤ) - 10) ∧
      (5 : ℤ) - 10 < 0 :=
  oversell_records_negative _ _ 5 (by with_unfolding_all decide) (by decide)

/-! ## C9: a split between buy and sell scales the carried quantity -/

/-- C9 counterexample.  For buy 10 @ 10 on day 0, a 2:1 split on day 30 and
sell 20 @ 6 on day 60, the closed period's computed gain is 20
(120 − 100), not 0 as the claim's example asserts. -/
theorem split_sell_gain_cex :
    processTrades [⟨30, 2⟩] [⟨0, 10, 10, .buy⟩, ⟨60, 20, 6, .sell⟩] =
      .ok { splits := [⟨30, 2⟩], positions := [⟨0, 10⟩, ⟨60, 0⟩], periods := [⟨0, some 60⟩],
            inflows := [⟨0, 100⟩], outflows := [⟨60, 120⟩] } ∧
    (dietzScan [⟨0, 100⟩] [⟨60, 120⟩] 0 60).1 = 20 ∧
    ¬ (dietzScan [⟨0, 100⟩] [⟨60, 120⟩] 0 60).1 = 0 := by
  with_unfolding_all decide

/-- C9 (amended).  A split ratio `R` dated strictly between the position
date and a later sell date scales the held quantity by `R` (with `int`
truncation) before that sell's gain/loss is computed; in the concrete
scenario (buy 10 @ 10 on day 0, 2:1 split on day 30, sell 20 @ 6 on
day 60) the quantity carried into the sell is 20 and the period's gain is
20 — a gain, not a loss — with average capital 100 and period factor 6/5. -/
theorem split_scales_quantity_before_sell :
    (∀ (d₀ ds d₁ q : ℤ) (R : ℚ) (tq : ℤ) (tp : ℚ) (h : Holding) (ps : List PositionEntry),
        h.splits = [⟨ds, R⟩] → h.positions = ps ++ [⟨d₀, q⟩] → d₀ < ds → ds < d₁ →
        h.sellAdjusted ⟨d₁, tq, tp, .sell⟩ = .ok (pyInt ((q : ℚ) * R))) ∧
    Holding.sellAdjusted ⟨[⟨30, 2⟩], [⟨0, 10⟩], [⟨0, none⟩], [⟨0, 100⟩], []⟩ ⟨60, 20, 6, .sell⟩ =
      .ok 20 ∧
    dietzScan [⟨0, 100⟩] [⟨60, 120⟩] 0 60 = (20, 100) ∧
    tsrLoop [⟨0, 100⟩] 100 0 0 [⟨0, some 60⟩] [⟨60, 120⟩] 1 0 = .ok (6 / 5, 60) := by
  refine ⟨?_, by with_unfolding_all decide, by with_unfolding_all decide,
    by with_unfolding_all decide⟩
  intro d₀ ds d₁ q R tq tp h ps hsp hpos hlt₁ hlt₂
  rw [Holding.sellAdjusted, hpos, List.getLast?_concat]
  simp only
  rw [if_pos (show d₀ < d₁ by omega), hsp, replaySplits]
  rw [if_neg (by simp; omega), if_neg (by simp; omega), if_neg (by simp; omega),
    if_pos (by simpa using hlt₁)]
  rfl

/-- Witness for C9: the general scaling statement at the concrete scenario
(position ⟨0, 10⟩, split ⟨30, 2⟩, sell on day 60) yields `int(10 * 2)`. -/
theorem split_scales_quantity_before_sell_witness :
    Holding.sellAdjusted ⟨[⟨30, 2⟩], [⟨0, 10⟩], [⟨0, none⟩], [⟨0, 100⟩], []⟩ ⟨60, 20, 6, .sell⟩ =
      .ok (pyInt ((10 : ℚ) * 2)) :=
  split_scales_quantity_before_sell.1 0 30 60 10 2 20 6 _ [] rfl rfl (by decide) (by decide)

/-! ## C8: benchmark alignment length -/

/-- `Except.bind` on a failure, for unfolding `do` blocks. -/
theorem except_bind_error {ε α β : Type} (e : ε) (f : α → Except ε β) :
    (Except.error e : Except ε α) >>= f = .error e := rfl

/-- `Except.bind` after `pure`, for unfolding `do` blocks. -/
theorem except_pure_bind {ε α β : Type} (a : α) (f : α → Except ε β) :
    (pure a : Except ε α) >>= f = f a := rfl

/-- `alignLoop` only ever appends to its accumulator. -/
theorem alignLoop_acc_grows (grid : List ℤ) (closes : List ℚ) (sp : ℚ) :
    ∀ (rows : List ℤ) (idx refIdx : ℕ) (acc : List (ℤ × ℚ)) (r : ℕ × List (ℤ × ℚ)),
      alignLoop grid closes sp rows idx refIdx acc = .ok r → ∃ tail, r.2 = acc ++ tail := by
  intro rows
  induction rows with
  | nil =>
    intro idx refIdx acc r hok
    rw [alignLoop] at hok
    exact ⟨[], by rw [← Except.ok.inj hok]; simp⟩
  | cons d rows ih =>
    intro idx refIdx acc r hok
    rw [alignLoop] at hok
    cases hg : grid.get? refIdx with
    | none => simp only [hg] at hok; exact Except.noConfusion hok
    | some refDate =>
      simp only [hg] at hok
      by_cases h1 : d < refDate
      · rw [if_pos h1] at hok
        exact ih _ _ _ _ hok
      · rw [if_neg h1] at hok
        by_cases h2 : d = refDate
        · rw [if_pos h2] at hok
          cases hc : pyGet closes idx with
          | error e => simp only [hc] at hok; exact Except.noConfusion hok
          | ok c =>
            simp only [hc] at hok
            obtain ⟨tail, htail⟩ := ih _ _ _ _ hok
            exact ⟨(refDate, c / sp) :: tail, by rw [htail]; simp⟩
        · rw [if_neg h2] at hok
          cases hc : pyGet closes ((idx : ℤ) - 1) with
          | error e => simp only [hc] at hok; exact Except.noConfusion hok
          | ok c =>
            simp only [hc] at hok
            cases hg' : grid.get? (refIdx + 1) with
            | none => simp only [hg'] at hok; exact Except.noConfusion hok
            | some refDate' =>
              simp only [hg'] at hok
              by_cases h3 : d = refDate'
              · rw [if_pos h3] at hok
                cases hc' : pyGet closes idx with
                | error e => simp only [hc'] at hok; exact Except.noConfusion hok
                | ok c' =>
                  simp only [hc'] at hok
                  obtain ⟨tail, htail⟩ := ih _ _ _ _ hok
                  exact ⟨(refDate, c / sp) :: (refDate', c' / sp) :: tail, by
                    rw [htail]; simp⟩
              · rw [if_neg h3] at hok
                obtain ⟨tail, htail⟩ := ih _ _ _ _ hok
                exact ⟨(refDate, c / sp) :: tail, by rw [htail]; simp⟩

/-- C8 counterexample.  The grid `[0, 1, 2, 3]` with the non-empty,
date-overlapping single-row price series `[(5, 1, 1)]` produces 3 pairs,
not 4, and the aligner fails with the alignment-length error — so the
produced length does NOT always equal the grid length. -/
theorem alignment_length_mismatch_cex :
    alignBenchmark [0, 1, 2, 3] [⟨5, 1, 1⟩] = .error .alignmentLength := by
  with_unfolding_all decide

/-- C8 (amended).  The aligner enforces — rather than guarantees — the exact
grid length: every successfully returned alignment has exactly as many pairs
as the grid, with the first pair normalized to 1.0 at the grid's start date,
and any run whose produced length differs fails with the alignment-length
error; some non-empty, date-overlapping series do fail that check.  A
successful example is also exhibited. -/
theorem alignment_ok_exact_length :
    (∀ (grid : List ℤ) (rows : List PriceRow) (hist : List (ℤ × ℚ)),
        alignBenchmark grid rows = .ok hist →
        hist.length = grid.length ∧
        ∀ g₀ gs, grid = g₀ :: gs → hist.head? = some (g₀, 1)) ∧
    alignBenchmark [0, 1] [⟨1, 2, 3⟩] = .ok [(0, 1), (1, 3 / 2)] := by
  refine ⟨?_, by with_unfolding_all decide⟩
  intro grid rows hist hok
  cases grid with
  | nil => rw [alignBenchmark] at hok; cases hok
  | cons g₀ gs =>
    simp only [alignBenchmark] at hok
    cases hsp : pyGet (rows.map PriceRow.openP) 0 with
    | error e => rw [hsp, except_bind_error] at hok; cases hok
    | ok sp =>
      rw [hsp, except_bind_ok] at hok
      cases hr : alignLoop (g₀ :: gs) (rows.map PriceRow.closeP) sp
          (rows.map PriceRow.date) 0 1 [(g₀, 1)] with
      | error e => rw [hr, except_bind_error] at hok; cases hok
      | ok r =>
        rw [hr, except_bind_ok] at hok
        obtain ⟨tail, htail⟩ := alignLoop_acc_grows _ _ _ _ _ _ _ _ hr
        have ht : r.2 = (g₀, (1 : ℚ)) :: tail := by simpa using htail
        by_cases hlen : r.2.length < (g₀ :: gs).length
        · rw [if_pos hlen] at hok
          cases hlc : pyGet (rows.map PriceRow.closeP) (-1) with
          | error e => rw [hlc, except_bind_error] at hok; cases hok
          | ok lc =>
            rw [hlc, except_bind_ok, except_pure_bind] at hok
            by_cases hfin : (r.2 ++ [(((g₀ :: gs).getLast?).getD g₀, lc / sp)]).length =
                (g₀ :: gs).length
            · rw [if_pos hfin] at hok
              have hh := Except.ok.inj hok
              refine ⟨by rw [← hh, hfin], ?_⟩
              intro a as heq
              obtain ⟨rfl, rfl⟩ := List.cons.inj heq
              rw [← hh, ht]
              simp
            · rw [if_neg hfin] at hok; cases hok
        · rw [if_neg hlen, except_pure_bind] at hok
          by_cases hfin : r.2.length = (g₀ :: gs).length
          · rw [if_pos hfin] at hok
            have hh := Except.ok.inj hok
            refine ⟨by rw [← hh, hfin], ?_⟩
            intro a as heq
            obtain ⟨rfl, rfl⟩ := List.cons.inj heq
            rw [← hh, ht]
            simp
          · rw [if_neg hfin] at hok; cases hok

/-- Witness for C8: the successful two-point alignment has exactly the
grid's length. -/
theorem alignment_ok_exact_length_witness :
    ([((0 : ℤ), (1 : ℚ)), (1, 3 / 2)].length = [(0 : ℤ), 1].length) :=
  (alignment_ok_exact_length.1 [0, 1] [⟨1, 2, 3⟩] [(0, 1), (1, 3 / 2)]
    (by with_unfolding_all decide)).1

/-! ## C3: the period list stays disjoint and ordered -/

/-- Disjointness and ordering of a period list: every period except possibly
the last is closed, each closed period has `start ≤ stop`, and each closed
period's stop is at most the next period's start. -/
def PChain : List Period → Prop
  | [] => True
  | [p] => ∀ e ∈ p.stop, p.start ≤ e
  | p :: q :: rest => (∃ e, p.stop = some e ∧ p.start ≤ e ∧ e ≤ q.start) ∧ PChain (q :: rest)

/-- Ledger validity of a trade sequence against a holding state: every SELL
is covered by the (split-adjusted) held quantity at its point of execution.
This is the well-formedness the spec presumes of the input ledger. -/
def sellsOK (h : Holding) : List Trade → Bool
  | [] => true
  | t :: ts =>
    (match t.action with
     | .buy => true
     | .sell =>
       match h.sellAdjusted t with
       | .ok qa => decide (t.quantity ≤ qa)
       | .error _ => true) &&
    (match h.step t with
     | .ok h₁ => sellsOK h₁ ts
     | .error _ => true)

/-- The state invariant maintained by `buy`/`sell`: position and period lists
are empty together, the period list is a `PChain`, all period dates are
bounded by the latest position date, the latest quantity is nonnegative, and
the latest quantity is zero exactly when the latest period is closed. -/
structure HoldingInv (h : Holding) : Prop where
  posPer : h.positions = [] ↔ h.periods = []
  chain : PChain h.periods
  bound : ∀ pl ∈ h.positions.getLast?, ∀ per ∈ h.periods,
    per.start ≤ pl.date ∧ ∀ e ∈ per.stop, e ≤ pl.date
  qnn : ∀ pl ∈ h.positions.getLast?, 0 ≤ pl.quantity
  link : ∀ pl ∈ h.positions.getLast?, ∀ per ∈ h.periods.getLast?,
    (pl.quantity = 0 ↔ per.stop ≠ none)

/-- The last period of a `PChain` has `start ≤ stop` when closed. -/
theorem PChain_getLast : ∀ {l : List Period}, PChain l → ∀ {p : Period},
    l.getLast? = some p → ∀ e ∈ p.stop, p.start ≤ e := by
  intro l
  induction l with
  | nil => intro _ p hp; cases hp
  | cons a l ih =>
    intro hc p hp
    cases l with
    | nil =>
      simp only [List.getLast?_singleton, Option.some.injEq] at hp
      subst hp
      exact hc
    | cons b m =>
      rw [List.getLast?_cons_cons] at hp
      exact ih hc.2 hp

/-- Appending a fresh open period to a `PChain` whose last period is closed
no later than the new start. -/
theorem PChain_append_open : ∀ {l : List Period}, PChain l → ∀ (d : ℤ),
    (∀ p ∈ l.getLast?, ∃ e, p.stop = some e ∧ e ≤ d) →
    PChain (l ++ [{ start := d, stop := none }]) := by
  intro l
  induction l with
  | nil =>
    intro _ d _
    intro e he
    cases he
  | cons a l ih =>
    intro hc d hlast
    cases l with
    | nil =>
      obtain ⟨e, he, hed⟩ := hlast a (by simp)
      refine ⟨⟨e, he, hc e (by simp [he, Option.mem_def]), hed⟩, ?_⟩
      intro e' he'
      cases he'
    | cons b m =>
      refine ⟨hc.1, ih hc.2 d ?_⟩
      intro p hp
      exact hlast p (by rwa [List.getLast?_cons_cons])

/-- Setting the stop of the last period of a `PChain` to any date at or
after its start preserves the chain. -/
theorem PChain_close_last : ∀ {l : List Period}, PChain l → ∀ {pe : Period},
    l.getLast? = some pe → ∀ (d : ℤ), pe.start ≤ d →
    PChain (l.dropLast ++ [{ pe with stop := some d }]) := by
  intro l
  induction l with
  | nil => intro _ pe hp; cases hp
  | cons a l ih =>
    intro hc pe hp d hd
    cases l with
    | nil =>
      simp only [List.getLast?_singleton, Option.some.injEq] at hp
      subst hp
      intro e he
      simp only [Option.mem_def, Option.some.injEq] at he
      subst he
      exact hd
    | cons b m =>
      rw [List.getLast?_cons_cons] at hp
      have hdl : (a :: b :: m).dropLast = a :: (b :: m).dropLast := rfl
      rw [hdl, List.cons_append]
      cases m with
      | nil =>
        simp only [List.getLast?_singleton, Option.some.injEq] at hp
        subst hp
        obtain ⟨e, he, hse, heb⟩ := hc.1
        refine ⟨⟨e, he, hse, heb⟩, ?_⟩
        intro e' he'
        simp only [Option.mem_def, Option.some.injEq] at he'
        subst he'
        exact hd
      | cons c m' =>
        refine ⟨?_, ih hc.2 hp d hd⟩
        obtain ⟨e, he, hse, heb⟩ := hc.1
        exact ⟨e, he, hse, heb⟩

/-- `pyInt 0 = 0`. -/
theorem pyInt_zero : pyInt 0 = 0 := by norm_num [pyInt]

/-- Split replay keeps nonnegative quantities nonnegative. -/
theorem replaySplits_nonneg (td ld : ℤ) : ∀ (splits : List Split) (q qa : ℤ),
    (∀ s ∈ splits, 0 ≤ s.ratio) → 0 ≤ q →
    replaySplits td ld splits q = .ok qa → 0 ≤ qa := by
  intro splits
  induction splits with
  | nil =>
    intro q qa _ hq hok
    rw [replaySplits] at hok
    rw [← Except.ok.inj hok]
    exact hq
  | cons s rest ih =>
    intro q qa hr hq hok
    rw [replaySplits] at hok
    by_cases h1 : td = s.date
    · rw [if_pos h1] at hok; cases hok
    · rw [if_neg h1] at hok
      by_cases h2 : td ≤ s.date
      · rw [if_pos h2] at hok
        rw [← Except.ok.inj hok]
        exact hq
      · rw [if_neg h2] at hok
        by_cases h3 : ld = s.date
        · rw [if_pos h3] at hok; cases hok
        · rw [if_neg h3] at hok
          by_cases h4 : ld < s.date
          · rw [if_pos h4] at hok
            exact ih _ qa (fun r hrr => hr r (List.mem_cons_of_mem s hrr))
              (pyInt_nonneg (mul_nonneg (by exact_mod_cast hq)
                (hr s (List.mem_cons_self s rest)))) hok
          · rw [if_neg h4] at hok
            exact ih _ qa (fun r hrr => hr r (List.mem_cons_of_mem s hrr)) hq hok

/-- Split replay of a zero quantity yields zero. -/
theorem replaySplits_zero (td ld : ℤ) : ∀ (splits : List Split) (qa : ℤ),
    replaySplits td ld splits 0 = .ok qa → qa = 0 := by
  intro splits
  induction splits with
  | nil =>
    intro qa hok
    rw [replaySplits] at hok
    exact (Except.ok.inj hok).symm
  | cons s rest ih =>
    intro qa hok
    rw [replaySplits] at hok
    by_cases h1 : td = s.date
    · rw [if_pos h1] at hok; cases hok
    · rw [if_neg h1] at hok
      by_cases h2 : td ≤ s.date
      · rw [if_pos h2] at hok
        exact (Except.ok.inj hok).symm
      · rw [if_neg h2] at hok
        by_cases h3 : ld = s.date
        · rw [if_pos h3] at hok; cases hok
        · rw [if_neg h3] at hok
          by_cases h4 : ld < s.date
          · rw [if_pos h4] at hok
            rw [show pyInt (((0 : ℤ) : ℚ) * s.ratio) = 0 by
              rw [show (((0 : ℤ) : ℚ) * s.ratio) = 0 by push_cast; ring, pyInt_zero]] at hok
            exact ih qa hok
          · rw [if_neg h4] at hok
            exact ih qa hok

/-- Evaluation of `Holding.buy` while flat (`current_quantity == 0`): a new
open period is appended. -/
theorem buy_eq_flat (h : Holding) (t : Trade)
    (h0 : ((h.positions.getLast?).map PositionEntry.quantity).getD 0 = 0) :
    h.buy t = .ok { h with
      periods := h.periods ++ [{ start := t.date, stop := none }],
      inflows := h.inflows ++ [{ date := t.date, value := (t.quantity : ℚ) * t.price }],
      positions :=
        match h.positions.getLast? with
        | some pl =>
          if pl.date = t.date then
            h.positions.dropLast ++ [{ pl with quantity := pl.quantity + t.quantity }]
          else
            h.positions ++ [{ date := t.date, quantity := 0 + t.quantity }]
        | none => h.positions ++ [{ date := t.date, quantity := 0 + t.quantity }] } := by
  rw [Holding.buy]
  rw [h0]
  rfl

/-- Evaluation of `Holding.buy` while held (`current_quantity != 0`), with
the split-replayed (or same-day carried) quantity known. -/
theorem buy_eq_held (h : Holding) (t : Trade) (pl : PositionEntry) (qa : ℤ)
    (hpl : h.positions.getLast? = some pl) (h0 : pl.quantity ≠ 0)
    (hqa : (if pl.date < t.date then replaySplits t.date pl.date h.splits pl.quantity
            else pure pl.quantity) = .ok qa) :
    h.buy t = .ok { h with
      inflows := h.inflows ++ [{ date := t.date, value := (t.quantity : ℚ) * t.price }],
      positions :=
        if pl.date = t.date then
          h.positions.dropLast ++ [{ pl with quantity := pl.quantity + t.quantity }]
        else
          h.positions ++ [{ date := t.date, quantity := qa + t.quantity }] } := by
  rw [Holding.buy, hpl]
  simp only [Option.map_some', Option.getD_some, if_neg h0]
  by_cases hdl : pl.date < t.date
  · rw [if_pos hdl]
    rw [if_pos hdl] at hqa
    rw [hqa, except_bind_ok]
    rfl
  · rw [if_neg hdl]
    rw [if_neg hdl] at hqa
    have hq : qa = pl.quantity := (Except.ok.inj hqa).symm
    subst hq
    rfl

/-- Evaluation of `Holding.buy` while held, when the split replay fails. -/
theorem buy_eq_held_error (h : Holding) (t : Trade) (pl : PositionEntry) (e : Err)
    (hpl : h.positions.getLast? = some pl) (h0 : pl.quantity ≠ 0)
    (he : (if pl.date < t.date then replaySplits t.date pl.date h.splits pl.quantity
           else pure pl.quantity) = .error e) :
    h.buy t = .error e := by
  rw [Holding.buy, hpl]
  simp only [Option.map_some', Option.getD_some, if_neg h0]
  by_cases hdl : pl.date < t.date
  · rw [if_pos hdl]
    rw [if_pos hdl] at he
    rw [he]
    rfl
  · rw [if_neg hdl] at he
    exact Except.noConfusion he

/-- An element reported by `getLast?` is a member. -/
theorem mem_of_getLast?_eq {α : Type} {l : List α} {a : α} (h : l.getLast? = some a) :
    a ∈ l := by
  have hd := List.dropLast_append_getLast? a h
  rw [← hd]
  simp

/-- A BUY preserves the holding invariant (positive trade quantity,
nonnegative split ratios, trade date at or after the latest position date),
and leaves a latest position dated at the trade date. -/
theorem buy_step_inv (h : Holding) (t : Trade) (hinv : HoldingInv h)
    (hq : 0 < t.quantity)
    (hd : ∀ pl ∈ h.positions.getLast?, pl.date ≤ t.date)
    (hr : ∀ s ∈ h.splits, 0 ≤ s.ratio)
    (h' : Holding) (hok : h.buy t = .ok h') :
    HoldingInv h' ∧ h'.splits = h.splits ∧
      ∃ pl', h'.positions.getLast? = some pl' ∧ pl'.date = t.date := by
  cases hpl : h.positions.getLast? with
  | none =>
    have hpos : h.positions = [] := List.getLast?_eq_none_iff.mp hpl
    have hper : h.periods = [] := hinv.posPer.mp hpos
    have h0 : ((h.positions.getLast?).map PositionEntry.quantity).getD 0 = 0 := by
      rw [hpl]; rfl
    rw [buy_eq_flat h t h0] at hok
    simp only [hpl] at hok
    obtain rfl := Except.ok.inj hok
    refine ⟨⟨?_, ?_, ?_, ?_, ?_⟩, rfl, ?_⟩
    · simp [hpos, hper]
    · show PChain (h.periods ++ [{ start := t.date, stop := none }])
      rw [hper]
      intro e he
      cases he
    · intro pl' hpl' per' hper'
      simp only [hpos, hper, List.nil_append, List.getLast?_singleton,
        Option.mem_def, Option.some.injEq, List.mem_singleton] at hpl' hper'
      subst hpl'
      subst hper'
      exact ⟨le_refl _, fun e he => by cases he⟩
    · intro pl' hpl'
      simp only [hpos, List.nil_append, List.getLast?_singleton, Option.mem_def,
        Option.some.injEq] at hpl'
      subst hpl'
      dsimp only
      omega
    · intro pl' hpl' per' hper'
      simp only [hpos, hper, List.nil_append, List.getLast?_singleton,
        Option.mem_def, Option.some.injEq] at hpl' hper'
      subst hpl'
      subst hper'
      exact iff_of_false (by dsimp only; omega) (by simp)
    · exact ⟨⟨t.date, 0 + t.quantity⟩, by simp [hpos], rfl⟩
  | some pl =>
    have hple : pl.date ≤ t.date := hd pl hpl
    have hplq : 0 ≤ pl.quantity := hinv.qnn pl hpl
    have hpos : h.positions ≠ [] := by
      intro hcon
      rw [hcon] at hpl
      cases hpl
    have hpernil : h.periods ≠ [] := fun hcon => hpos (hinv.posPer.mpr hcon)
    obtain ⟨pe, hpe⟩ : ∃ pe, h.periods.getLast? = some pe := by
      cases hpe' : h.periods.getLast? with
      | none => exact absurd (List.getLast?_eq_none_iff.mp hpe') hpernil
      | some pe => exact ⟨pe, rfl⟩
    have hpemem : pe ∈ h.periods := mem_of_getLast?_eq hpe
    by_cases hq0 : pl.quantity = 0
    · -- flat branch with a recorded (zero-quantity) latest position
      have h0 : ((h.positions.getLast?).map PositionEntry.quantity).getD 0 = 0 := by
        rw [hpl]; simp [hq0]
      obtain ⟨e, he⟩ : ∃ e, pe.stop = some e :=
        Option.ne_none_iff_exists'.mp ((hinv.link pl hpl pe hpe).mp hq0)
      have hed : e ≤ pl.date := (hinv.bound pl hpl pe hpemem).2 e he
      have hchain' : PChain (h.periods ++ [{ start := t.date, stop := none }]) := by
        refine PChain_append_open hinv.chain t.date ?_
        intro p hp
        have hp' : p = pe := by
          rw [hpe] at hp
          exact (Option.some.inj hp).symm
        subst hp'
        exact ⟨e, he, le_trans hed hple⟩
      rw [buy_eq_flat h t h0] at hok
      simp only [hpl] at hok
      by_cases hdate : pl.date = t.date
      · rw [if_pos hdate] at hok
        obtain rfl := Except.ok.inj hok
        have hlastpos : (h.positions.dropLast ++
            [{ pl with quantity := pl.quantity + t.quantity }]).getLast? =
            some { pl with quantity := pl.quantity + t.quantity } := List.getLast?_concat _
        refine ⟨⟨?_, hchain', ?_, ?_, ?_⟩, rfl, ?_⟩
        · constructor
          · intro hcon
            exact absurd hcon (by simp)
          · intro hcon
            exact absurd hcon (by simp)
        · intro pl' hpl' per' hper'
          rw [Option.mem_def, hlastpos] at hpl'
          obtain rfl := Option.some.inj hpl'
          rcases List.mem_append.mp hper' with hmem | hmem
          · obtain ⟨hb1, hb2⟩ := hinv.bound pl hpl per' hmem
            exact ⟨by dsimp only; omega, fun e' he' => by have := hb2 e' he'; dsimp only; omega⟩
          · rw [List.mem_singleton] at hmem
            subst hmem
            exact ⟨by dsimp only; omega, fun e' he' => by cases he'⟩
        · intro pl' hpl'
          rw [Option.mem_def, hlastpos] at hpl'
          obtain rfl := Option.some.inj hpl'
          dsimp only
          omega
        · intro pl' hpl' per' hper'
          rw [Option.mem_def, hlastpos] at hpl'
          obtain rfl := Option.some.inj hpl'
          rw [Option.mem_def, List.getLast?_concat] at hper'
          obtain rfl := Option.some.inj hper'
          exact iff_of_false (by dsimp only; omega) (by simp)
        · exact ⟨_, hlastpos, hdate⟩
      · rw [if_neg hdate] at hok
        obtain rfl := Except.ok.inj hok
        have hlastpos : (h.positions ++
            [({ date := t.date, quantity := 0 + t.quantity } : PositionEntry)]).getLast? =
            some { date := t.date, quantity := 0 + t.quantity } := List.getLast?_concat _
        refine ⟨⟨?_, hchain', ?_, ?_, ?_⟩, rfl, ?_⟩
        · constructor
          · intro hcon
            exact absurd hcon (by simp)
          · intro hcon
            exact absurd hcon (by simp)
        · intro pl' hpl' per' hper'
          rw [Option.mem_def, hlastpos] at hpl'
          obtain rfl := Option.some.inj hpl'
          rcases List.mem_append.mp hper' with hmem | hmem
          · obtain ⟨hb1, hb2⟩ := hinv.bound pl hpl per' hmem
            exact ⟨by dsimp only; omega, fun e' he' => by have := hb2 e' he'; dsimp only; omega⟩
          · rw [List.mem_singleton] at hmem
            subst hmem
            exact ⟨by dsimp only; omega, fun e' he' => by cases he'⟩
        · intro pl' hpl'
          rw [Option.mem_def, hlastpos] at hpl'
          obtain rfl := Option.some.inj hpl'
          dsimp only
          omega
        · intro pl' hpl' per' hper'
          rw [Option.mem_def, hlastpos] at hpl'
          obtain rfl := Option.some.inj hpl'
          rw [Option.mem_def, List.getLast?_concat] at hper'
          obtain rfl := Option.some.inj hper'
          exact iff_of_false (by dsimp only; omega) (by simp)
        · exact ⟨_, hlastpos, rfl⟩
    · -- held branch: current_quantity nonzero
      have hpeopen : pe.stop = none := by
        by_contra hcon
        exact hq0 ((hinv.link pl hpl pe hpe).mpr hcon)
      obtain ⟨qa, hqa, hqann⟩ : ∃ qa,
          (if pl.date < t.date then replaySplits t.date pl.date h.splits pl.quantity
           else pure pl.quantity) = .ok qa ∧ 0 ≤ qa := by
        by_cases hdl : pl.date < t.date
        · cases hra : replaySplits t.date pl.date h.splits pl.quantity with
          | error e =>
            rw [buy_eq_held_error h t pl e hpl hq0 (by rw [if_pos hdl]; exact hra)] at hok
            cases hok
          | ok qa =>
            refine ⟨qa, ?_, replaySplits_nonneg t.date pl.date h.splits pl.quantity qa hr hplq hra⟩
            rw [if_pos hdl]
        · exact ⟨pl.quantity, by rw [if_neg hdl]; rfl, hplq⟩
      rw [buy_eq_held h t pl qa hpl hq0 hqa] at hok
      by_cases hdate : pl.date = t.date
      · rw [if_pos hdate] at hok
        obtain rfl := Except.ok.inj hok
        have hlastpos : (h.positions.dropLast ++
            [{ pl with quantity := pl.quantity + t.quantity }]).getLast? =
            some { pl with quantity := pl.quantity + t.quantity } := List.getLast?_concat _
        refine ⟨⟨?_, hinv.chain, ?_, ?_, ?_⟩, rfl, ?_⟩
        · constructor
          · intro hcon
            exact absurd hcon (by simp)
          · intro hcon
            exact absurd (hinv.posPer.mpr hcon) hpos
        · intro pl' hpl' per' hper'
          rw [Option.mem_def, hlastpos] at hpl'
          obtain rfl := Option.some.inj hpl'
          obtain ⟨hb1, hb2⟩ := hinv.bound pl hpl per' hper'
          exact ⟨by dsimp only; omega, fun e' he' => by have := hb2 e' he'; dsimp only; omega⟩
        · intro pl' hpl'
          rw [Option.mem_def, hlastpos] at hpl'
          obtain rfl := Option.some.inj hpl'
          dsimp only
          omega
        · intro pl' hpl' per' hper'
          rw [Option.mem_def, hlastpos] at hpl'
          obtain rfl := Option.some.inj hpl'
          rw [Option.mem_def, hpe] at hper'
          obtain rfl := Option.some.inj hper'
          exact iff_of_false (by dsimp only; omega) (by rw [hpeopen]; simp)
        · exact ⟨_, hlastpos, hdate⟩
      · rw [if_neg hdate] at hok
        obtain rfl := Except.ok.inj hok
        have hlastpos : (h.positions ++
            [({ date := t.date, quantity := qa + t.quantity } : PositionEntry)]).getLast? =
            some { date := t.date, quantity := qa + t.quantity } := List.getLast?_concat _
        refine ⟨⟨?_, hinv.chain, ?_, ?_, ?_⟩, rfl, ?_⟩
        · constructor
          · intro hcon
            exact absurd hcon (by simp)
          · intro hcon
            exact absurd (hinv.posPer.mpr hcon) hpos
        · intro pl' hpl' per' hper'
          rw [Option.mem_def, hlastpos] at hpl'
          obtain rfl := Option.some.inj hpl'
          obtain ⟨hb1, hb2⟩ := hinv.bound pl hpl per' hper'
          exact ⟨by dsimp only; omega, fun e' he' => by have := hb2 e' he'; dsimp only; omega⟩
        · intro pl' hpl'
          rw [Option.mem_def, hlastpos] at hpl'
          obtain rfl := Option.some.inj hpl'
          dsimp only
          omega
        · intro pl' hpl' per' hper'
          rw [Option.mem_def, hlastpos] at hpl'
          obtain rfl := Option.some.inj hpl'
          rw [Option.mem_def, hpe] at hper'
          obtain rfl := Option.some.inj hper'
          exact iff_of_false (by dsimp only; omega) (by rw [hpeopen]; simp)
        · exact ⟨_, hlastpos, rfl⟩

/-- Evaluation of `Holding.sell` when the adjusted quantity exactly zeroes
the position: the last period is closed at the trade date. -/
theorem sell_eq_of_adjusted_close (h : Holding) (t : Trade) (qa : ℤ) (pe : Period)
    (hqa : h.sellAdjusted t = .ok qa) (hz : qa - t.quantity = 0)
    (hpe : h.periods.getLast? = some pe) :
    h.sell t = .ok { h with
      periods := h.periods.dropLast ++ [{ pe with stop := some t.date }],
      outflows := h.outflows ++ [{ date := t.date, value := (t.quantity : ℚ) * t.price }],
      positions :=
        match h.positions.getLast? with
        | some pl =>
          if pl.date = t.date then
            h.positions.dropLast ++ [{ pl with quantity := pl.quantity - t.quantity }]
          else
            h.positions ++ [{ date := t.date, quantity := qa - t.quantity }]
        | none => h.positions } := by
  rw [Holding.sell, hqa, except_bind_ok, if_pos hz, hpe]
  rfl

/-- A SELL covered by the (split-adjusted) held quantity preserves the
holding invariant and leaves a latest position dated at the trade date. -/
theorem sell_step_inv (h : Holding) (t : Trade) (hinv : HoldingInv h)
    (hq : 0 < t.quantity)
    (hd : ∀ pl ∈ h.positions.getLast?, pl.date ≤ t.date)
    (hr : ∀ s ∈ h.splits, 0 ≤ s.ratio)
    (hsell : ∀ qa, h.sellAdjusted t = .ok qa → t.quantity ≤ qa)
    (h' : Holding) (hok : h.sell t = .ok h') :
    HoldingInv h' ∧ h'.splits = h.splits ∧
      ∃ pl', h'.positions.getLast? = some pl' ∧ pl'.date = t.date := by
  cases hqa : h.sellAdjusted t with
  | error e =>
    rw [Holding.sell, hqa, except_bind_error] at hok
    cases hok
  | ok qa =>
    obtain ⟨pl, hpl⟩ : ∃ pl, h.positions.getLast? = some pl := by
      cases hpl' : h.positions.getLast? with
      | none =>
        simp only [Holding.sellAdjusted, hpl'] at hqa
        exact Except.noConfusion hqa
      | some pl => exact ⟨pl, rfl⟩
    have hple : pl.date ≤ t.date := hd pl hpl
    have hplq : 0 ≤ pl.quantity := hinv.qnn pl hpl
    have hqann : 0 ≤ qa := by
      simp only [Holding.sellAdjusted, hpl] at hqa
      by_cases hdl : pl.date < t.date
      · rw [if_pos hdl] at hqa
        exact replaySplits_nonneg t.date pl.date h.splits pl.quantity qa hr hplq hqa
      · rw [if_neg hdl] at hqa
        rw [← Except.ok.inj hqa]
        exact hplq
    have hts : t.quantity ≤ qa := hsell qa hqa
    have hqapos : 0 < qa := lt_of_lt_of_le hq hts
    have hplqnz : pl.quantity ≠ 0 := by
      intro h0
      simp only [Holding.sellAdjusted, hpl] at hqa
      by_cases hdl : pl.date < t.date
      · rw [if_pos hdl, h0] at hqa
        have := replaySplits_zero t.date pl.date h.splits qa hqa
        omega
      · rw [if_neg hdl] at hqa
        have := Except.ok.inj hqa
        omega
    have hpos : h.positions ≠ [] := by
      intro hcon
      rw [hcon] at hpl
      cases hpl
    have hpernil : h.periods ≠ [] := fun hcon => hpos (hinv.posPer.mpr hcon)
    obtain ⟨pe, hpe⟩ : ∃ pe, h.periods.getLast? = some pe := by
      cases hpe' : h.periods.getLast? with
      | none => exact absurd (List.getLast?_eq_none_iff.mp hpe') hpernil
      | some pe => exact ⟨pe, rfl⟩
    have hpemem : pe ∈ h.periods := mem_of_getLast?_eq hpe
    have hpeb := hinv.bound pl hpl pe hpemem
    have hpeopen : pe.stop = none := by
      by_contra hcon
      exact hplqnz ((hinv.link pl hpl pe hpe).mpr hcon)
    have hqaeq : ¬ pl.date < t.date → qa = pl.quantity := by
      intro hdl
      simp only [Holding.sellAdjusted, hpl] at hqa
      rw [if_neg hdl] at hqa
      exact (Except.ok.inj hqa).symm
    by_cases hz : qa - t.quantity = 0
    · -- the sell zeroes the position: the period closes at the trade date
      rw [sell_eq_of_adjusted_close h t qa pe hqa hz hpe] at hok
      simp only [hpl] at hok
      have hchain' : PChain (h.periods.dropLast ++ [{ pe with stop := some t.date }]) :=
        PChain_close_last hinv.chain hpe t.date (le_trans hpeb.1 hple)
      have hlastper : (h.periods.dropLast ++ [{ pe with stop := some t.date }]).getLast? =
          some { pe with stop := some t.date } := List.getLast?_concat _
      by_cases hdate : pl.date = t.date
      · rw [if_pos hdate] at hok
        obtain rfl := Except.ok.inj hok
        have hqq : pl.quantity - t.quantity = 0 := by
          have := hqaeq (by omega)
          omega
        have hlastpos : (h.positions.dropLast ++
            [{ pl with quantity := pl.quantity - t.quantity }]).getLast? =
            some { pl with quantity := pl.quantity - t.quantity } := List.getLast?_concat _
        refine ⟨⟨?_, hchain', ?_, ?_, ?_⟩, rfl, ?_⟩
        · constructor
          · intro hcon
            exact absurd hcon (by simp)
          · intro hcon
            exact absurd hcon (by simp)
        · intro pl' hpl' per' hper'
          rw [Option.mem_def, hlastpos] at hpl'
          obtain rfl := Option.some.inj hpl'
          rcases List.mem_append.mp hper' with hmem | hmem
          · have hmem' : per' ∈ h.periods := List.dropLast_subset _ hmem
            obtain ⟨hb1, hb2⟩ := hinv.bound pl hpl per' hmem'
            exact ⟨by dsimp only; omega, fun e' he' => by have := hb2 e' he'; dsimp only; omega⟩
          · rw [List.mem_singleton] at hmem
            subst hmem
            refine ⟨by dsimp only; omega, ?_⟩
            intro e' he'
            rw [Option.mem_def] at he'
            dsimp only at he'
            obtain rfl := Option.some.inj he'
            dsimp only
            omega
        · intro pl' hpl'
          rw [Option.mem_def, hlastpos] at hpl'
          obtain rfl := Option.some.inj hpl'
          dsimp only
          omega
        · intro pl' hpl' per' hper'
          rw [Option.mem_def, hlastpos] at hpl'
          obtain rfl := Option.some.inj hpl'
          rw [Option.mem_def, hlastper] at hper'
          obtain rfl := Option.some.inj hper'
          exact iff_of_true (by dsimp only; omega) (by simp)
        · exact ⟨_, hlastpos, hdate⟩
      · rw [if_neg hdate] at hok
        obtain rfl := Except.ok.inj hok
        have hlastpos : (h.positions ++
            [({ date := t.date, quantity := qa - t.quantity } : PositionEntry)]).getLast? =
            some { date := t.date, quantity := qa - t.quantity } := List.getLast?_concat _
        refine ⟨⟨?_, hchain', ?_, ?_, ?_⟩, rfl, ?_⟩
        · constructor
          · intro hcon
            exact absurd hcon (by simp)
          · intro hcon
            exact absurd hcon (by simp)
        · intro pl' hpl' per' hper'
          rw [Option.mem_def, hlastpos] at hpl'
          obtain rfl := Option.some.inj hpl'
          rcases List.mem_append.mp hper' with hmem | hmem
          · have hmem' : per' ∈ h.periods := List.dropLast_subset _ hmem
            obtain ⟨hb1, hb2⟩ := hinv.bound pl hpl per' hmem'
            exact ⟨by dsimp only; omega, fun e' he' => by have := hb2 e' he'; dsimp only; omega⟩
          · rw [List.mem_singleton] at hmem
            subst hmem
            refine ⟨by dsimp only; omega, ?_⟩
            intro e' he'
            rw [Option.mem_def] at he'
            dsimp only at he'
            obtain rfl := Option.some.inj he'
            dsimp only
            omega
        · intro pl' hpl'
          rw [Option.mem_def, hlastpos] at hpl'
          obtain rfl := Option.some.inj hpl'
          dsimp only
          omega
        · intro pl' hpl' per' hper'
          rw [Option.mem_def, hlastpos] at hpl'
          obtain rfl := Option.some.inj hpl'
          rw [Option.mem_def, hlastper] at hper'
          obtain rfl := Option.some.inj hper'
          exact iff_of_true (by dsimp only; omega) (by simp)
        · exact ⟨_, hlastpos, rfl⟩
    · -- the position stays open
      rw [sell_eq_of_adjusted h t qa hqa hz] at hok
      simp only [hpl] at hok
      by_cases hdate : pl.date = t.date
      · rw [if_pos hdate] at hok
        obtain rfl := Except.ok.inj hok
        have hqeq : qa = pl.quantity := hqaeq (by omega)
        have hlastpos : (h.positions.dropLast ++
            [{ pl with quantity := pl.quantity - t.quantity }]).getLast? =
            some { pl with quantity := pl.quantity - t.quantity } := List.getLast?_concat _
        refine ⟨⟨?_, hinv.chain, ?_, ?_, ?_⟩, rfl, ?_⟩
        · constructor
          · intro hcon
            exact absurd hcon (by simp)
          · intro hcon
            exact absurd (hinv.posPer.mpr hcon) hpos
        · intro pl' hpl' per' hper'
          rw [Option.mem_def, hlastpos] at hpl'
          obtain rfl := Option.some.inj hpl'
          obtain ⟨hb1, hb2⟩ := hinv.bound pl hpl per' hper'
          exact ⟨by dsimp only; omega, fun e' he' => by have := hb2 e' he'; dsimp only; omega⟩
        · intro pl' hpl'
          rw [Option.mem_def, hlastpos] at hpl'
          obtain rfl := Option.some.inj hpl'
          dsimp only
          omega
        · intro pl' hpl' per' hper'
          rw [Option.mem_def, hlastpos] at hpl'
          obtain rfl := Option.some.inj hpl'
          rw [Option.mem_def, hpe] at hper'
          obtain rfl := Option.some.inj hper'
          exact iff_of_false (by dsimp only; omega) (by rw [hpeopen]; simp)
        · exact ⟨_, hlastpos, hdate⟩
      · rw [if_neg hdate] at hok
        obtain rfl := Except.ok.inj hok
        have hlastpos : (h.positions ++
            [({ date := t.date, quantity := qa - t.quantity } : PositionEntry)]).getLast? =
            some { date := t.date, quantity := qa - t.quantity } := List.getLast?_concat _
        refine ⟨⟨?_, hinv.chain, ?_, ?_, ?_⟩, rfl, ?_⟩
        · constructor
          · intro hcon
            exact absurd hcon (by simp)
          · intro hcon
            exact absurd (hinv.posPer.mpr hcon) hpos
        · intro pl' hpl' per' hper'
          rw [Option.mem_def, hlastpos] at hpl'
          obtain rfl := Option.some.inj hpl'
          obtain ⟨hb1, hb2⟩ := hinv.bound pl hpl per' hper'
          exact ⟨by dsimp only; omega, fun e' he' => by have := hb2 e' he'; dsimp only; omega⟩
        · intro pl' hpl'
          rw [Option.mem_def, hlastpos] at hpl'
          obtain rfl := Option.some.inj hpl'
          dsimp only
          omega
        · intro pl' hpl' per' hper'
          rw [Option.mem_def, hlastpos] at hpl'
          obtain rfl := Option.some.inj hpl'
          rw [Option.mem_def, hpe] at hper'
          obtain rfl := Option.some.inj hper'
          exact iff_of_false (by dsimp only; omega) (by rw [hpeopen]; simp)
        · exact ⟨_, hlastpos, rfl⟩

/-- With all split dates outside `[ld, td]`, the replay loop is the
identity on the quantity. -/
theorem replaySplits_outside (td ld : ℤ) : ∀ (splits : List Split) (q : ℤ),
    (∀ s ∈ splits, s.date < ld ∨ td < s.date) → ld < td →
    replaySplits td ld splits q = .ok q := by
  intro splits
  induction splits with
  | nil => intro q _ _; rfl
  | cons s rest ih =>
    intro q hs hlt
    rcases hs s (List.mem_cons_self s rest) with h | h
    · rw [replaySplits, if_neg (by omega), if_neg (by omega), if_neg (by omega),
        if_neg (by omega)]
      exact ih q (fun r hr => hs r (List.mem_cons_of_mem s hr)) hlt
    · rw [replaySplits, if_neg (by omega), if_pos (by omega)]

/-- The holding invariant holds initially and is preserved along any valid
chronological trade sequence. -/
theorem processTrades_inv_aux : ∀ (ts : List Trade) (h : Holding), HoldingInv h →
    (∀ s ∈ h.splits, 0 ≤ s.ratio) →
    (∀ t ∈ ts, 0 < t.quantity) →
    List.Chain' (fun a b : Trade => a.date ≤ b.date) ts →
    (∀ t ∈ ts.head?, ∀ pl ∈ h.positions.getLast?, pl.date ≤ t.date) →
    sellsOK h ts = true →
    ∀ h', ts.foldlM Holding.step h = .ok h' → HoldingInv h' := by
  intro ts
  induction ts with
  | nil =>
    intro h hinv _ _ _ _ _ h' hok
    rw [List.foldlM_nil] at hok
    obtain rfl := Except.ok.inj hok
    exact hinv
  | cons t ts ih =>
    intro h hinv hr hq hchain hd hsok h' hok
    rw [List.foldlM_cons] at hok
    cases hstep : h.step t with
    | error e =>
      rw [hstep, except_bind_error] at hok
      cases hok
    | ok h₁ =>
      rw [hstep, except_bind_ok] at hok
      rw [sellsOK, Bool.and_eq_true] at hsok
      obtain ⟨hsok1, hsok2⟩ := hsok
      simp only [hstep] at hsok2
      have hd1 : ∀ pl ∈ h.positions.getLast?, pl.date ≤ t.date := fun pl hpl => hd t rfl pl hpl
      have hstep' : HoldingInv h₁ ∧ h₁.splits = h.splits ∧
          ∃ pl', h₁.positions.getLast? = some pl' ∧ pl'.date = t.date := by
        cases hact : t.action with
        | buy =>
          have hb : h.buy t = .ok h₁ := by
            simp only [Holding.step, hact] at hstep
            exact hstep
          exact buy_step_inv h t hinv (hq t (List.mem_cons_self t ts)) hd1 hr h₁ hb
        | sell =>
          have hs : h.sell t = .ok h₁ := by
            simp only [Holding.step, hact] at hstep
            exact hstep
          have hsc : ∀ qa, h.sellAdjusted t = .ok qa → t.quantity ≤ qa := by
            intro qa hqa
            simp only [hact] at hsok1
            simp only [hqa] at hsok1
            exact of_decide_eq_true hsok1
          exact sell_step_inv h t hinv (hq t (List.mem_cons_self t ts)) hd1 hr hsc h₁ hs
      obtain ⟨hinv₁, hspl₁, pl', hpl', hpld⟩ := hstep'
      refine ih h₁ hinv₁ (by rw [hspl₁]; exact hr)
        (fun t' ht' => hq t' (List.mem_cons_of_mem t ht'))
        (List.chain'_cons'.mp hchain).2 ?_ hsok2 h' hok
      intro t' ht' pl'' hpl''
      rw [Option.mem_def, hpl'] at hpl''
      obtain rfl := Option.some.inj hpl''
      have hdd : t.date ≤ t'.date := (List.chain'_cons'.mp hchain).1 t' ht'
      omega

/-- C3.  Processed chronologically with positive quantities, positive split
ratios and a ledger-valid sequence of sells, the operations keep every
Holding's period list disjoint and ordered (`PChain`): a BUY processed while
the held quantity is zero opens a new period starting at the trade date, a
SELL whose split-adjusted result is exactly zero closes the current period
at the trade date, and a BUY immediately followed by a SELL of the same
quantity on a later date (with no split in between) produces exactly one
closed period ending at the sell date. -/
theorem periods_disjoint_ordered :
    (∀ (splits : List Split) (ts : List Trade) (h : Holding),
        (∀ s ∈ splits, 0 ≤ s.ratio) →
        (∀ t ∈ ts, 0 < t.quantity) →
        List.Chain' (fun a b : Trade => a.date ≤ b.date) ts →
        sellsOK (Holding.init splits) ts = true →
        processTrades splits ts = .ok h →
        PChain h.periods) ∧
    (∀ (h : Holding) (t : Trade) (h' : Holding),
        ((h.positions.getLast?).map PositionEntry.quantity).getD 0 = 0 →
        h.buy t = .ok h' →
        h'.periods = h.periods ++ [{ start := t.date, stop := none }]) ∧
    (∀ (h : Holding) (t : Trade) (h' : Holding) (qa : ℤ) (pe : Period),
        h.sellAdjusted t = .ok qa → qa - t.quantity = 0 →
        h.periods.getLast? = some pe →
        h.sell t = .ok h' →
        h'.periods = h.periods.dropLast ++ [{ pe with stop := some t.date }]) ∧
    (∀ (splits : List Split) (d₀ d₁ q : ℤ) (p₀ p₁ : ℚ),
        0 < q → d₀ < d₁ →
        (∀ s ∈ splits, s.date < d₀ ∨ d₁ < s.date) →
        ∃ H, processTrades splits [⟨d₀, q, p₀, .buy⟩, ⟨d₁, q, p₁, .sell⟩] = .ok H ∧
          H.periods = [{ start := d₀, stop := some d₁ }]) := by
  refine ⟨?_, ?_, ?_, ?_⟩
  · intro splits ts h hr hq hchain hsok hok
    have hinv0 : HoldingInv (Holding.init splits) := by
      refine ⟨by simp [Holding.init], trivial, ?_, ?_, ?_⟩
      · intro pl hpl
        cases hpl
      · intro pl hpl
        cases hpl
      · intro pl hpl
        cases hpl
    exact (processTrades_inv_aux ts (Holding.init splits) hinv0 hr hq hchain
      (fun t ht pl hpl => by cases hpl) hsok h hok).chain
  · intro h t h' h0 hok
    rw [buy_eq_flat h t h0] at hok
    obtain rfl := Except.ok.inj hok
    rfl
  · intro h t h' qa pe hqa hz hpe hok
    rw [sell_eq_of_adjusted_close h t qa pe hqa hz hpe] at hok
    obtain rfl := Except.ok.inj hok
    rfl
  · intro splits d₀ d₁ q p₀ p₁ hq hlt hs
    have hb : (Holding.init splits).buy ⟨d₀, q, p₀, .buy⟩ = .ok
        { splits := splits, positions := [⟨d₀, 0 + q⟩], periods := [⟨d₀, none⟩],
          inflows := [⟨d₀, (q : ℚ) * p₀⟩], outflows := [] } :=
      buy_eq_flat (Holding.init splits) ⟨d₀, q, p₀, .buy⟩ rfl
    have hadj : Holding.sellAdjusted
        { splits := splits, positions := [⟨d₀, 0 + q⟩], periods := [⟨d₀, none⟩],
          inflows := [⟨d₀, (q : ℚ) * p₀⟩], outflows := [] } ⟨d₁, q, p₁, .sell⟩ =
        .ok (0 + q) := by
      simp only [Holding.sellAdjusted, List.getLast?_singleton]
      rw [if_pos hlt]
      exact replaySplits_outside d₁ d₀ splits (0 + q) hs hlt
    have hclose := sell_eq_of_adjusted_close
      { splits := splits, positions := [⟨d₀, 0 + q⟩], periods := [⟨d₀, none⟩],
        inflows := [⟨d₀, (q : ℚ) * p₀⟩], outflows := [] } ⟨d₁, q, p₁, .sell⟩
      (0 + q) ⟨d₀, none⟩ hadj (by dsimp only; omega) rfl
    simp only [List.getLast?_singleton, List.dropLast_single, List.singleton_append,
      List.nil_append, zero_add, sub_self, if_neg (show ¬ d₀ = d₁ by omega)] at hclose
    refine ⟨{ splits := splits, positions := [⟨d₀, q⟩, ⟨d₁, 0⟩],
              periods := [{ start := d₀, stop := some d₁ }],
              inflows := [⟨d₀, (q : ℚ) * p₀⟩], outflows := [⟨d₁, (q : ℚ) * p₁⟩] }, ?_, rfl⟩
    show List.foldlM Holding.step (Holding.init splits) _ = _
    rw [List.foldlM_cons]
    have hstep1 : (Holding.init splits).step ⟨d₀, q, p₀, .buy⟩ =
        (Holding.init splits).buy ⟨d₀, q, p₀, .buy⟩ := rfl
    rw [hstep1, hb, except_bind_ok, List.foldlM_cons]
    have hstep2 : Holding.step
        { splits := splits, positions := [⟨d₀, 0 + q⟩], periods := [⟨d₀, none⟩],
          inflows := [⟨d₀, (q : ℚ) * p₀⟩], outflows := [] } ⟨d₁, q, p₁, .sell⟩ =
        Holding.sell
        { splits := splits, positions := [⟨d₀, 0 + q⟩], periods := [⟨d₀, none⟩],
          inflows := [⟨d₀, (q : ℚ) * p₀⟩], outflows := [] } ⟨d₁, q, p₁, .sell⟩ := rfl
    rw [hstep2]
    simp only [zero_add]
    rw [hclose, except_bind_ok, List.foldlM_nil]
    rfl

/-- Witness for C3: the run buy 1 @ 1 on day 0, sell 1 @ 1 on day 1 (no
splits) satisfies all the hypotheses and yields the single closed period
`[0, 1]`, which is a `PChain`. -/
theorem periods_disjoint_ordered_witness :
    (∃ H, processTrades [] [⟨0, 1, 1, .buy⟩, ⟨1, 1, 1, .sell⟩] = .ok H ∧
        H.periods = [{ start := 0, stop := some 1 }]) ∧
    ∀ h : Holding, processTrades [] [⟨0, 1, 1, .buy⟩, ⟨1, 1, 1, .sell⟩] = .ok h →
      PChain h.periods := by
  constructor
  · exact periods_disjoint_ordered.2.2.2 [] 0 1 1 1 1 (by decide) (by decide)
      (by intro s hs; cases hs)
  · intro h hok
    exact periods_disjoint_ordered.1 [] [⟨0, 1, 1, .buy⟩, ⟨1, 1, 1, .sell⟩] h
      (by intro s hs; cases hs) (by decide)
      (List.chain'_pair.mpr (by decide))
      (by with_unfolding_all decide) hok

/-! ## C5: dividend attribution -/

/-- The (amended) declarative attribution rule `_add_dividends` implements:
select the position snapshot whose date is the latest one STRICTLY BEFORE
the dividend date; skip if there is none or its quantity is not positive;
otherwise emit an outflow on the dividend date valued at the per-share
amount times the split-adjusted quantity (splits strictly between the
snapshot date and the dividend date, each truncated with `int`) times
`1 - 0.15`. -/
def dividendRule (positions : List PositionEntry) (splits : List Split) (d : Dividend) :
    Option Flow :=
  match (positions.filter (fun p => decide (p.date < d.date))).getLast? with
  | none => none
  | some p =>
    if 0 < p.quantity then
      some { date := d.date,
             value := (((splits.filter
                 (fun s => decide (p.date < s.date ∧ s.date < d.date))).foldl
                 (fun acc s => pyInt ((acc : ℚ) * s.ratio)) p.quantity : ℤ) : ℚ) *
               d.amount * (1 - 15 / 100) }
    else none

/-- C5 counterexample.  A dividend dated exactly on the (only) snapshot date
— the snapshot with positive quantity 10 being "the latest one not after the
dividend date" — is silently skipped by `_add_dividends`; the claim would
have it emit an outflow of `10 × 1 × 0.85`. -/
theorem dividend_on_snapshot_date_skipped_cex :
    addDividendsLoop [] [⟨0, 1⟩] [⟨0, 10⟩] 0 [] = .ok [] ∧
    addDividendsLoop [] [⟨0, 1⟩] [⟨0, 10⟩] 0 [] ≠
      .ok [⟨0, 10 * 1 * (1 - 15 / 100)⟩] := by
  with_unfolding_all decide

/-- In a date-sorted list, the entries dated before a cutoff form a prefix. -/
theorem sorted_take_filter_lt (c : ℤ) : ∀ (l : List Split),
    l.Pairwise (fun a b => a.date ≤ b.date) →
    l.take ((l.filter (fun s => decide (s.date < c))).length) =
      l.filter (fun s => decide (s.date < c)) := by
  intro l
  induction l with
  | nil => intro _; rfl
  | cons s rest ih =>
    intro hs
    rw [List.pairwise_cons] at hs
    by_cases h : s.date < c
    · rw [List.filter_cons_of_pos (by simpa using h), List.length_cons,
        List.take_succ_cons, ih hs.2]
    · rw [List.filter_cons_of_neg (by simpa using h)]
      have hnil : rest.filter (fun s => decide (s.date < c)) = [] := by
        refine List.filter_eq_nil_iff.mpr (fun r hr => ?_)
        have := hs.1 r hr
        simp only [decide_eq_true_eq]
        omega
      rw [hnil]
      rfl

/-- The `while True` cursor loop of `_add_dividends`, entered with the
current snapshot strictly before the dividend date, advances to the LAST
snapshot strictly before the dividend date and then either emits (positive
quantity) or skips. -/
theorem divWhile_advance (splits : List Split) (dd : ℤ) (amt : ℚ) :
    ∀ (ps : List PositionEntry) (p : PositionEntry),
      p.date < dd →
      (p :: ps).Pairwise (fun a b : PositionEntry => a.date ≤ b.date) →
      ∀ (sIdx : ℕ) (acc : List Flow),
      ∃ (done : List PositionEntry) (psel : PositionEntry) (rest' : List PositionEntry),
        p :: ps = done ++ psel :: rest' ∧
        (∀ x ∈ done, x.date < dd) ∧ psel.date < dd ∧
        (∀ x ∈ rest', ¬ x.date < dd) ∧
        divWhile splits dd amt (p :: ps) sIdx acc =
          (if 0 < psel.quantity then
            match divSplitLoop dd psel.date (splits.drop sIdx) psel.quantity sIdx with
            | .error e => .error e
            | .ok qs => .ok (psel :: rest', qs.2,
                acc ++ [{ date := dd, value := (qs.1 : ℚ) * amt * (1 - 15 / 100) }])
          else .ok (psel :: rest', sIdx, acc)) := by
  intro ps
  induction ps with
  | nil =>
    intro p hp _ sIdx acc
    refine ⟨[], p, [], rfl, by simp, hp, by simp, ?_⟩
    rw [divWhile, if_pos hp]
  | cons nx rest ih =>
    intro p hp hsort sIdx acc
    rw [List.pairwise_cons] at hsort
    by_cases hnx : nx.date < dd
    · obtain ⟨done, psel, rest', heq, hdone, hpsel, hrest, heval⟩ := ih nx hnx hsort.2 sIdx acc
      refine ⟨p :: done, psel, rest', by rw [List.cons_append, ← heq], ?_, hpsel, hrest, ?_⟩
      · intro x hx
        rcases List.mem_cons.mp hx with rfl | hx'
        · exact hp
        · exact hdone x hx'
      · rw [divWhile, if_pos hp]
        dsimp only
        rw [if_pos hnx]
        exact heval
    · refine ⟨[], p, nx :: rest, rfl, by simp, hp, ?_, ?_⟩
      · intro x hx
        rcases List.mem_cons.mp hx with rfl | hx'
        · exact hnx
        · have := (List.pairwise_cons.mp hsort.2).1 x hx'
          omega
      · rw [divWhile, if_pos hp]
        dsimp only
        rw [if_neg hnx]

/-- The outer dividend loop of `_add_dividends` computes exactly the
declarative rule, relative to a cursor decomposition of the snapshot list
and the split cursor `sIdx`. -/
theorem addDividendsLoop_spec (positions : List PositionEntry) (splits : List Split)
    (hpos : positions.Pairwise (fun a b : PositionEntry => a.date ≤ b.date))
    (hsp : splits.Pairwise (fun a b => a.date ≤ b.date))
    (hcol : ∀ s ∈ splits, ∀ p ∈ positions, s.date ≠ p.date) :
    ∀ (dividends : List Dividend) (posDone posSuffix : List PositionEntry)
      (sIdx : ℕ) (acc : List Flow),
      positions = posDone ++ posSuffix →
      dividends.Pairwise (fun a b : Dividend => a.date ≤ b.date) →
      (posSuffix = [] → posDone = []) →
      (∀ p ∈ posDone, ∀ d ∈ dividends, p.date < d.date) →
      (posDone ≠ [] → ∀ hd ∈ posSuffix.head?, ∀ d ∈ dividends, hd.date < d.date) →
      (∀ s ∈ splits.take sIdx, ∀ hd ∈ posSuffix.head?, s.date < hd.date) →
      addDividendsLoop splits dividends posSuffix sIdx acc =
        .ok (acc ++ dividends.filterMap (dividendRule positions splits)) := by
  intro dividends
  induction dividends with
  | nil =>
    intro posDone posSuffix sIdx acc _ _ _ _ _ _
    rw [addDividendsLoop]
    simp
  | cons d rest ih =>
    intro posDone posSuffix sIdx acc hdecomp hdivs hB0 hB1 hB3 hC1
    rw [List.pairwise_cons] at hdivs
    cases posSuffix with
    | nil =>
      have hdone : posDone = [] := hB0 rfl
      have hposnil : positions = [] := by rw [hdecomp, hdone]; rfl
      have hnone : ∀ d' : Dividend, dividendRule positions splits d' = none := by
        intro d'
        rw [dividendRule, hposnil]
        rfl
      have hfm : (d :: rest).filterMap (dividendRule positions splits) = [] :=
        List.filterMap_eq_nil_iff.mpr (fun d' _ => hnone d')
      rw [addDividendsLoop, hfm]
      simp
    | cons p ps =>
      have hpos' : List.Pairwise (fun a b : PositionEntry => a.date ≤ b.date)
          (posDone ++ p :: ps) := hdecomp ▸ hpos
      have hpairs := List.pairwise_append.mp hpos'
      have hsufsorted : (p :: ps).Pairwise (fun a b : PositionEntry => a.date ≤ b.date) :=
        hpairs.2.1
      by_cases hpd : p.date < d.date
      · obtain ⟨done, psel, rest', heq, hdone, hpsel, hrest, heval⟩ :=
          divWhile_advance splits d.date d.amount ps p hpd hsufsorted sIdx acc
        have hpselmem : psel ∈ p :: ps := by
          rw [heq]
          exact List.mem_append_right _ (List.mem_cons_self _ _)
        have hpselpos : psel ∈ positions := by
          rw [hdecomp]
          exact List.mem_append_right _ hpselmem
        have hppsel : p.date ≤ psel.date := by
          rcases List.mem_cons.mp hpselmem with h' | hm
          · rw [h']
          · exact (List.pairwise_cons.mp hsufsorted).1 psel hm
        have hfilterpos : positions.filter (fun q' => decide (q'.date < d.date)) =
            (posDone ++ done) ++ [psel] := by
          rw [hdecomp, heq, List.filter_append, List.filter_append, List.filter_cons_of_pos
            (by simpa using hpsel)]
          rw [List.filter_eq_self.mpr (fun x hx => by
            simpa using hB1 x hx d (List.mem_cons_self d rest))]
          rw [List.filter_eq_self.mpr (fun x hx => by simpa using hdone x hx)]
          rw [List.filter_eq_nil_iff.mpr (fun x hx => by simpa using hrest x hx)]
          rw [List.append_assoc]
        have hsel : (positions.filter (fun q' => decide (q'.date < d.date))).getLast? =
            some psel := by
          rw [hfilterpos]
          exact List.getLast?_concat _
        have hC1psel : ∀ s ∈ splits.take sIdx, s.date < psel.date := by
          intro s hs
          have := hC1 s hs p rfl
          omega
        by_cases hq : 0 < psel.quantity
        · -- emission
          have hdropsorted : (splits.drop sIdx).Pairwise (fun a b => a.date ≤ b.date) :=
            hsp.drop
          have hdropnc : ∀ s ∈ splits.drop sIdx, s.date < d.date → s.date ≠ psel.date :=
            fun s hs _ => hcol s (List.drop_subset _ _ hs) psel hpselpos
          have hds := divSplitLoop_eq_foldl d.date psel.date (splits.drop sIdx)
            psel.quantity sIdx hdropsorted hdropnc
          have hwindow : splits.filter (fun s => decide (psel.date < s.date ∧ s.date < d.date)) =
              (splits.drop sIdx).filter
                (fun s => decide (psel.date < s.date ∧ s.date < d.date)) := by
            conv_lhs => rw [← List.take_append_drop sIdx splits]
            rw [List.filter_append, List.filter_eq_nil_iff.mpr (fun s hs => by
              have := hC1psel s hs
              simp only [decide_eq_true_eq, not_and]
              intro hcon
              omega), List.nil_append]
          have hruleval : dividendRule positions splits d = some
              { date := d.date,
                value := ((((splits.drop sIdx).filter
                    (fun s => decide (psel.date < s.date ∧ s.date < d.date))).foldl
                    (fun acc s => pyInt ((acc : ℚ) * s.ratio)) psel.quantity : ℤ) : ℚ) *
                  d.amount * (1 - 15 / 100) } := by
            rw [dividendRule, hsel]
            dsimp only
            rw [if_pos hq, hwindow]
          rw [addDividendsLoop]
          rw [heval, if_pos hq, hds]
          dsimp only
          rw [ih (posDone ++ done) (psel :: rest')
            (sIdx + ((splits.drop sIdx).filter
              (fun s => decide (s.date < d.date ∧ s.date < psel.date))).length)
            (acc ++ [({ date := d.date,
                        value := ((((splits.drop sIdx).filter
                          (fun s => decide (psel.date < s.date ∧ s.date < d.date))).foldl
                          (fun acc s => pyInt ((acc : ℚ) * s.ratio)) psel.quantity : ℤ) : ℚ) *
                          d.amount * (1 - 15 / 100) } : Flow)])
            (by rw [hdecomp, heq, List.append_assoc])
            hdivs.2
            (by intro hcon; cases hcon)
            (by
              intro x hx d' hd'
              rcases List.mem_append.mp hx with hxd | hxd
              · exact hB1 x hxd d' (List.mem_cons_of_mem d hd')
              · have := hdone x hxd
                have := hdivs.1 d' hd'
                omega)
            (by
              intro _ hd hhd d' hd'
              rw [List.head?_cons, Option.mem_def] at hhd
              obtain rfl := Option.some.inj hhd
              have := hdivs.1 d' hd'
              omega)
            (by
              intro s hs hd hhd
              rw [List.head?_cons, Option.mem_def] at hhd
              obtain rfl := Option.some.inj hhd
              rw [List.take_add] at hs
              rcases List.mem_append.mp hs with hst | hst
              · exact hC1psel s hst
              · have hcongr : (splits.drop sIdx).filter
                    (fun s => decide (s.date < d.date ∧ s.date < psel.date)) =
                    (splits.drop sIdx).filter (fun s => decide (s.date < psel.date)) :=
                  List.filter_congr (fun x _ => by
                    simp only [decide_eq_decide]
                    omega)
                rw [hcongr, sorted_take_filter_lt psel.date _ hdropsorted] at hst
                have := List.of_mem_filter hst
                simpa using this)]
          rw [List.filterMap_cons, hruleval]
          dsimp only
          rw [List.append_assoc]
          rfl
        · -- zero quantity at the selected snapshot: skipped
          have hruleval : dividendRule positions splits d = none := by
            rw [dividendRule, hsel]
            dsimp only
            rw [if_neg hq]
          rw [addDividendsLoop]
          rw [heval, if_neg hq]
          dsimp only
          rw [ih (posDone ++ done) (psel :: rest') sIdx acc
            (by rw [hdecomp, heq, List.append_assoc])
            hdivs.2
            (by intro hcon; cases hcon)
            (by
              intro x hx d' hd'
              rcases List.mem_append.mp hx with hxd | hxd
              · exact hB1 x hxd d' (List.mem_cons_of_mem d hd')
              · have := hdone x hxd
                have := hdivs.1 d' hd'
                omega)
            (by
              intro _ hd hhd d' hd'
              rw [List.head?_cons, Option.mem_def] at hhd
              obtain rfl := Option.some.inj hhd
              have := hdivs.1 d' hd'
              omega)
            (by
              intro s hs hd hhd
              rw [List.head?_cons, Option.mem_def] at hhd
              obtain rfl := Option.some.inj hhd
              have := hC1psel s hs
              omega)]
          rw [List.filterMap_cons, hruleval]
      · -- the dividend is not after the current snapshot: skipped
        have hdonenil : posDone = [] := by
          by_contra hne
          have := hB3 hne p rfl d (List.mem_cons_self d rest)
          omega
        have hposeq : positions = p :: ps := by rw [hdecomp, hdonenil]; rfl
        have hruleval : dividendRule positions splits d = none := by
          rw [dividendRule]
          rw [List.filter_eq_nil_iff.mpr (fun x hx => by
            rw [hposeq] at hx
            rcases List.mem_cons.mp hx with rfl | hm
            · simp only [decide_eq_true_eq]
              omega
            · have := (List.pairwise_cons.mp hsufsorted).1 x hm
              simp only [decide_eq_true_eq]
              omega)]
          rfl
        rw [addDividendsLoop]
        rw [divWhile, if_neg hpd]
        dsimp only
        rw [ih posDone (p :: ps) sIdx acc hdecomp hdivs.2
          (by intro hcon; cases hcon)
          (fun x hx d' hd' => hB1 x hx d' (List.mem_cons_of_mem d hd'))
          (fun hne hd hhd d' hd' => hB3 hne hd hhd d' (List.mem_cons_of_mem d hd'))
          hC1]
        rw [List.filterMap_cons, hruleval]

/-- C5 (amended).  For dividends processed in ascending date order against
date-sorted snapshots, `_add_dividends` attributes each dividend to the
snapshot whose date is the latest one STRICTLY BEFORE the dividend date —
skipping it when no snapshot precedes it (in particular when the dividend
falls exactly on the first snapshot's date) or when the selected quantity
is zero — and otherwise emits an outflow of per-share amount × the
split-adjusted quantity (splits strictly between snapshot and dividend
date) × (1 − 0.15); an empty snapshot list terminates attribution early
without error. -/
theorem dividend_attribution_strictly_before :
    (∀ (h : Holding) (dividends : List Dividend),
        h.positions.Pairwise (fun a b : PositionEntry => a.date ≤ b.date) →
        h.splits.Pairwise (fun a b => a.date ≤ b.date) →
        dividends.Pairwise (fun a b : Dividend => a.date ≤ b.date) →
        (∀ s ∈ h.splits, ∀ p ∈ h.positions, s.date ≠ p.date) →
        h.addDividends dividends =
          .ok (h.outflows ++ dividends.filterMap (dividendRule h.positions h.splits))) ∧
    (∀ (splits : List Split) (dividends : List Dividend) (sIdx : ℕ) (acc : List Flow),
        addDividendsLoop splits dividends [] sIdx acc = .ok acc) := by
  constructor
  · intro h dividends hpos hsp hdivs hcol
    rw [Holding.addDividends]
    exact addDividendsLoop_spec h.positions h.splits hpos hsp hcol dividends [] h.positions 0
      h.outflows rfl hdivs (fun _ => rfl) (by intro p hp; cases hp)
      (fun hcon => absurd rfl hcon) (by intro s hs; cases hs)
  · intro splits dividends sIdx acc
    cases dividends with
    | nil => rfl
    | cons d rest => rfl

/-- Witness for C5: one 2:1 split on day 30 between the snapshot (day 0,
10 shares) and the dividend (day 40, 1 per share) — the emitted outflow uses
the post-split quantity 20. -/
theorem dividend_attribution_strictly_before_witness :
    Holding.addDividends ⟨[⟨30, 2⟩], [⟨0, 10⟩], [⟨0, none⟩], [], []⟩ [⟨40, 1⟩] =
      .ok ([] ++ ([⟨40, 1⟩] : List Dividend).filterMap
        (dividendRule [⟨0, 10⟩] [⟨30, 2⟩])) :=
  dividend_attribution_strictly_before.1 ⟨[⟨30, 2⟩], [⟨0, 10⟩], [⟨0, none⟩], [], []⟩
    [⟨40, 1⟩] (by decide) (by decide) (by decide) (by decide)

end Investing

